import Mathlib

/-!
# Verification of the smartNote transcription pipeline

This file gives a shallow embedding, in Lean 4, of the algorithmic core of the
smartNote repository and settles a list of claims about it:

* the timecode parser `parse_mmss_to_seconds` (src/modules/utils.py);
* the citation extractor `extract_citations` (src/modules/text_processing.py);
* the audio windower `split_audio_with_overlap` (src/modules/stt.py);
* the overlap reconciler `merge_segment_lists` and its helper
  `find_best_overlap_match` (src/modules/stt.py), including an embedding of
  Python's `difflib.SequenceMatcher.ratio`;
* the token-based chunker `create_token_based_chunks`
  (src/modules/text_processing.py), over a splitter modelled from the spec
  (the third-party `RecursiveCharacterTextSplitter` is not part of the
  repository);
* the JSON recovery chain of `recognize_with_gemini` (src/modules/stt.py),
  over an embedding of Python's `json.loads` error behaviour.

Conventions: Python `str` is embedded as `List Char` (wrapped in `String` at
function boundaries), Python `float` as `ℚ` (exact rational arithmetic; the
source only adds, divides by constant powers of ten, and compares), Python
`int` as `Int`/`Nat`, `None`-able fields as `Option`. Python exceptions that a
surrounding `try`/`except` converts into a default result are embedded with
`Option` and `getD`. Loops whose termination is not structural are embedded
with an explicit fuel parameter, returning `none` when the fuel runs out.
-/

namespace SmartNote

/-! ## Basic character-list utilities shared by several embeddings -/

/-- ASCII whitespace test matching what Python's `str.split()` / `int(...)`
treat as whitespace for the inputs that occur here. -/
def isWs (c : Char) : Bool :=
  c == ' ' || c == '\n' || c == '\t' || c == '\r' || c == '\x0b' || c == '\x0c'

def isDigitCh (c : Char) : Bool := '0' ≤ c && c ≤ '9'

/-- Numeric value of a digit string (most significant first). -/
def digitsVal (ds : List Char) : Nat :=
  ds.foldl (fun a c => a * 10 + (c.toNat - '0'.toNat)) 0

/-- `Python: s.split(sep)` for a one-character separator: keeps empty pieces,
always returns at least one piece. -/
def splitOnChar (sep : Char) : List Char → List (List Char)
  | [] => [[]]
  | x :: xs =>
    if x = sep then [] :: splitOnChar sep xs
    else
      match splitOnChar sep xs with
      | [] => [[x]]
      | g :: gs => (x :: g) :: gs

/-- Drop leading whitespace. -/
def dropWs (cs : List Char) : List Char :=
  match cs with
  | [] => []
  | c :: rest => if isWs c then dropWs rest else c :: rest

/-- Strip whitespace at both ends (Python `str.strip()` on ASCII input). -/
def stripWs (cs : List Char) : List Char :=
  (dropWs ((dropWs cs.reverse).reverse))

/-- All-digit, non-empty string to its value; `none` otherwise. -/
def digitsOpt (ds : List Char) : Option Nat :=
  if ds ≠ [] ∧ ds.all isDigitCh then some (digitsVal ds) else none

/-- `Python: int(s)` on a string: optional surrounding whitespace, optional
sign, then a non-empty digit run.  (Underscore digit grouping, accepted by
Python since 3.6, never occurs in the payloads this pipeline parses and is
not modelled.) -/
def pyInt (cs : List Char) : Option Int :=
  match stripWs cs with
  | '-' :: ds => (digitsOpt ds).map (fun n => -(n : Int))
  | '+' :: ds => (digitsOpt ds).map (fun n => (n : Int))
  | ds => (digitsOpt ds).map (fun n => (n : Int))

/-! ## Time-Code Parser — `parse_mmss_to_seconds` (src/modules/utils.py:60-112)

The source splits on `'.'` first; when a dot is present, the fractional part
is parsed with `int(...)` and *divided by 1000* (milliseconds), and the part
before the dot is split on `':'` into 3 fields (`H:MM:SS`) or 2 fields
(`MM:SS`).  Without a dot, 4 colon fields are `H:MM:SS:mmm`, 3 are `H:MM:SS`,
2 are `MM:SS`.  Any other arity returns `0.0`; any `int(...)` failure raises,
and the surrounding bare `except` returns `0.0`. -/

/-- The body of `parse_mmss_to_seconds` up to its `try`: `none` stands for a
raised exception (caught by the source's bare `except`, which returns 0.0). -/
def parseMmssAttempt (cs : List Char) : Option ℚ :=
  if cs.contains '.' then
    match splitOnChar '.' cs with
    | [] => some 0                  -- unreachable: splitOnChar is never empty
    | timeParts :: afterDot =>
      match afterDot with
      | [] => some 0                -- unreachable: '.' present gives ≥ 2 parts
      | msPart :: _ =>
        match pyInt msPart with     -- `int(main_parts[1])`, before the arity test
        | none => none
        | some ms =>
          match splitOnChar ':' timeParts with
          | [p0, p1, p2] =>
            match pyInt p0, pyInt p1, pyInt p2 with
            | some h, some m, some s =>
              some ((h : ℚ) * 3600 + (m : ℚ) * 60 + (s : ℚ) + (ms : ℚ) / 1000)
            | _, _, _ => none
          | [p0, p1] =>
            match pyInt p0, pyInt p1 with
            | some m, some s => some ((m : ℚ) * 60 + (s : ℚ) + (ms : ℚ) / 1000)
            | _, _ => none
          | _ => some 0             -- falls through to `return 0.0`
  else
    match splitOnChar ':' cs with
    | [p0, p1, p2, p3] =>
      match pyInt p0, pyInt p1, pyInt p2, pyInt p3 with
      | some h, some m, some s, some ms =>
        some ((h : ℚ) * 3600 + (m : ℚ) * 60 + (s : ℚ) + (ms : ℚ) / 1000)
      | _, _, _, _ => none
    | [p0, p1, p2] =>
      match pyInt p0, pyInt p1, pyInt p2 with
      | some h, some m, some s => some ((h : ℚ) * 3600 + (m : ℚ) * 60 + (s : ℚ))
      | _, _, _ => none
    | [p0, p1] =>
      match pyInt p0, pyInt p1 with
      | some m, some s => some ((m : ℚ) * 60 + (s : ℚ))
      | _, _ => none
    | _ => some 0                   -- falls through to `return 0.0`

/-- `parse_mmss_to_seconds` (src/modules/utils.py:60-112). -/
def parse_mmss_to_seconds (s : String) : ℚ :=
  (parseMmssAttempt s.data).getD 0

/-- The timecode shapes the source actually accepts (used to state the
"everything else returns 0.0" half of the format claim): a dotted input needs
an `int`-parseable first dot-tail and a 2- or 3-field colon head; an undotted
input needs 2, 3 or 4 `int`-parseable colon fields. -/
def timecodeWellFormed (cs : List Char) : Prop :=
  if cs.contains '.' then
    match splitOnChar '.' cs with
    | [] => False
    | timeParts :: afterDot =>
      match afterDot with
      | [] => False
      | msPart :: _ =>
        (pyInt msPart).isSome ∧
          match splitOnChar ':' timeParts with
          | [p0, p1, p2] => (pyInt p0).isSome ∧ (pyInt p1).isSome ∧ (pyInt p2).isSome
          | [p0, p1] => (pyInt p0).isSome ∧ (pyInt p1).isSome
          | _ => False
  else
    match splitOnChar ':' cs with
    | [p0, p1, p2, p3] =>
      (pyInt p0).isSome ∧ (pyInt p1).isSome ∧ (pyInt p2).isSome ∧ (pyInt p3).isSome
    | [p0, p1, p2] => (pyInt p0).isSome ∧ (pyInt p1).isSome ∧ (pyInt p2).isSome
    | [p0, p1] => (pyInt p0).isSome ∧ (pyInt p1).isSome
    | _ => False

instance (cs : List Char) : Decidable (timecodeWellFormed cs) := by
  unfold timecodeWellFormed
  split <;> (try split) <;> (try split) <;> (try split) <;> infer_instance

/-- A non-empty all-digit field, as written in the accepted timecode formats. -/
def DigitField (ds : List Char) : Prop := ds ≠ [] ∧ ds.all isDigitCh = true

instance (ds : List Char) : Decidable (DigitField ds) := by
  unfold DigitField; infer_instance

/-! ## Citation Resolver — `extract_citations` (src/modules/text_processing.py:181-203)

The source runs `re.findall` with the pattern `\[cite:\s*(\d+(?:\s*,\s*\d+)*)\]`
over the text, splits each captured group on `','`, strips and `int(...)`-parses
each piece, extends one flat list with all of them, and finally returns
`sorted(list(set(...)))`.  The matcher below embeds that regular expression
at one position by greedy matching without backtracking, which is equivalent
for this pattern: the digit runs are maximal (a shorter run would have to be
followed by `,`, `]` or whitespace, which are not digits, so shrinking a
`\d+` never enables a match), and a `(?:\s*,\s*\d+)*` iteration either
completes or is not taken at all (dropping a completed iteration leaves the
scanner on the whitespace/comma character that started it, which can match
neither `\d` nor `]`). -/

/-- Match a literal character sequence, returning the rest of the input. -/
def litPrefix : List Char → List Char → Option (List Char)
  | [], cs => some cs
  | _ :: _, [] => none
  | p :: ps, c :: cs => if c = p then litPrefix ps cs else none

/-- Maximal run of ASCII digits at the head of the input. -/
def takeDigits : List Char → (List Char × List Char)
  | [] => ([], [])
  | c :: rest =>
    if isDigitCh c then
      let (ds, r) := takeDigits rest
      (c :: ds, r)
    else ([], c :: rest)

/-- A non-empty maximal digit run, parsed to its value. -/
def digits1 (cs : List Char) : Option (Nat × List Char) :=
  match takeDigits cs with
  | ([], _) => none
  | (ds, r) => some (digitsVal ds, r)

/-- The `(?:\s*,\s*\d+)*` loop of the citation pattern: each iteration is
atomic (on failure the input from before the iteration is returned). The
fuel only needs to exceed the input length, since every iteration consumes
at least the comma. -/
def citeTailLoop : Nat → List Nat → List Char → (List Nat × List Char)
  | 0, acc, cs => (acc, cs)
  | fuel + 1, acc, cs =>
    match dropWs cs with
    | ',' :: rest =>
      match digits1 (dropWs rest) with
      | some (n, rem) => citeTailLoop fuel (acc ++ [n]) rem
      | none => (acc, cs)
    | _ => (acc, cs)

/-- One attempt to match `\[cite:\s*(\d+(?:\s*,\s*\d+)*)\]` at the head of
the input; on success, the marker's integer list (split on commas and
`int(...)`-parsed exactly as the source's list comprehension does) and the
input after the closing bracket. -/
def citeMatchAt (cs : List Char) : Option (List Nat × List Char) :=
  match litPrefix ('[' :: 'c' :: 'i' :: 't' :: 'e' :: ':' :: []) cs with
  | none => none
  | some r1 =>
    match digits1 (dropWs r1) with
    | none => none
    | some (n0, r2) =>
      match citeTailLoop r2.length [n0] r2 with
      | (ns, ']' :: rem) => some (ns, rem)
      | _ => none

/-- `re.findall` scanning: left to right, non-overlapping, resuming after
each match. -/
def citeScan : Nat → List Char → List (List Nat)
  | 0, _ => []
  | _, [] => []
  | fuel + 1, c :: rest =>
    match citeMatchAt (c :: rest) with
    | some (ns, rem) => ns :: citeScan fuel rem
    | none => citeScan fuel rest

/-- All `[cite: ...]` markers of a text, in document order, each as its raw
integer list. -/
def findCiteLists (cs : List Char) : List (List Nat) :=
  citeScan cs.length cs

/-- `Python: sorted(list(set(xs)))` — ascending list of the distinct values. -/
def sortedDedup (xs : List Nat) : List Nat :=
  (xs.dedup).insertionSort (· ≤ ·)

/-- `extract_citations` (src/modules/text_processing.py:181-203): one flat
list, deduplicated and sorted ascending across all markers. -/
def extract_citations (s : String) : List Nat :=
  sortedDedup (findCiteLists s.data).flatten

/-- The per-marker extraction that the spec's §4.6 describes (one `Citation`
per marker, in document order, its integer list deduplicated and sorted
ascending).  Written from the spec's words, for comparison with the source's
`extract_citations`. -/
def extract_citations_per_marker (s : String) : List (List Nat) :=
  (findCiteLists s.data).map sortedDedup

/-! ## Windower — `split_audio_with_overlap` (src/modules/stt.py:915-994)

Windows are embedded as `(start_s, end_s)` pairs; the temporary audio files
the source writes carry no information beyond these offsets.  `len(audio)` is
an integer millisecond count (`totalMs : Nat`); `chunk_duration_minutes` and
`overlap_seconds` are numbers (`ℚ`).  The `while` loop has no structural
termination measure, so it takes fuel; `none` means the loop was still
running when the fuel ran out (for every fuel — as proved below for
`window_length_s ≤ overlap_s` — the source loops forever). -/

/-- The `while start_ms < total_duration_ms` loop of
`split_audio_with_overlap` (src/modules/stt.py:951-984). -/
def splitLoop (totalMs chunkMs overlapMs : ℚ) :
    Nat → ℚ → List (ℚ × ℚ) → Option (List (ℚ × ℚ))
  | 0, _, _ => none
  | fuel + 1, startMs, acc =>
    if startMs < totalMs then
      let endMs := min (startMs + chunkMs) totalMs
      let acc' := acc ++ [(startMs / 1000, endMs / 1000)]
      if totalMs ≤ endMs then some acc'
      else splitLoop totalMs chunkMs overlapMs fuel (endMs - overlapMs) acc'
    else some acc

/-- `split_audio_with_overlap` (src/modules/stt.py:915-994): one window when
the audio fits in a single chunk, otherwise the overlap loop. -/
def split_audio_with_overlap (fuel : Nat) (totalMs : Nat)
    (chunkDurationMinutes overlapSeconds : ℚ) : Option (List (ℚ × ℚ)) :=
  let chunkMs := chunkDurationMinutes * 60 * 1000
  if (totalMs : ℚ) ≤ chunkMs then some [(0, (totalMs : ℚ) / 1000)]
  else splitLoop (totalMs : ℚ) chunkMs (overlapSeconds * 1000) fuel 0 []

/-! ## Utterance records

One diarized utterance, as produced by `recognize_with_gemini`
(src/modules/stt.py:745-754): every record it builds carries all six keys,
with `end_time` possibly `None`, so the reconciler's `"start_time" in seg`
and `is not None` guards are embedded accordingly. -/

structure Seg where
  id : Nat
  speaker : String
  start_time : ℚ
  end_time : Option ℚ
  confidence : ℚ
  text : String
deriving DecidableEq

/-- `Python: s.split()` with no argument — whitespace runs separate words,
no empty pieces. -/
def pyWords (s : String) : List String :=
  ((List.splitOnP (fun c => isWs c) s.data).filter (· ≠ [])).map (fun w => String.mk w)

/-! ## `difflib.SequenceMatcher` on two strings

A faithful embedding of CPython's `difflib` for `SequenceMatcher(None, a,
b).ratio()`: `b2j` with the autojunk rule (for `len(b) ≥ 200`, characters
occurring in more than `len(b)//100 + 1` positions are dropped from `b2j`),
`find_longest_match` (dict loop plus the four extension loops), the
recursive matching-blocks total, and `ratio = 2·M/(len(a)+len(b))`.
Dictionary iteration order in `b2j[c]` is position-ascending, as built. -/

/-- Ascending positions of a character in `b`. -/
def positionsOf (b : List Char) (c : Char) : List Nat :=
  (b.enum.filter (fun p => p.2 = c)).map (·.1)

/-- difflib's `isbjunk` under autojunk (no explicit junk predicate is passed
by the source). -/
def isbjunk (b : List Char) (c : Char) : Bool :=
  b.length ≥ 200 && (positionsOf b c).length > b.length / 100 + 1

/-- difflib's `b2j[c]`: all positions of `c` in `b`, minus autojunk. -/
def b2j (b : List Char) (c : Char) : List Nat :=
  if isbjunk b c then [] else positionsOf b c

/-- Lookup in the `j2len` dictionary (association list), default 0. -/
def j2get (m : List (Nat × Nat)) (j : Nat) : Nat :=
  match m.find? (fun p => p.1 = j) with
  | some p => p.2
  | none => 0

/-- The inner `for j in b2j[a[i]]` loop of `find_longest_match`: builds
`newj2len` and updates the best block.  `j - 1` at `j = 0` is Python's
`j2len.get(-1, 0) = 0`. -/
def flmInner (blo bhi i : Nat) (j2len : List (Nat × Nat)) :
    List Nat → List (Nat × Nat) → (Nat × Nat × Nat) → (List (Nat × Nat) × (Nat × Nat × Nat))
  | [], acc, best => (acc, best)
  | j :: js, acc, best =>
    if j < blo then flmInner blo bhi i j2len js acc best
    else if bhi ≤ j then (acc, best)
    else
      let k := (if j = 0 then 0 else j2get j2len (j - 1)) + 1
      let best' := if k > best.2.2 then (i - k + 1, j - k + 1, k) else best
      flmInner blo bhi i j2len js ((j, k) :: acc) best'

/-- The outer `for i in range(alo, ahi)` loop of `find_longest_match`. -/
def flmOuter (a b : List Char) (blo bhi : Nat) :
    List Nat → List (Nat × Nat) → (Nat × Nat × Nat) → (Nat × Nat × Nat)
  | [], _, best => best
  | i :: is, j2len, best =>
    let (newj2len, best') := flmInner blo bhi i j2len (b2j b (a.getD i ' ')) [] best
    flmOuter a b blo bhi is newj2len best'

/-- One backward extension loop of `find_longest_match` (`jv = false` for the
non-junk pass, `true` for the junk pass).  The fuel only needs to reach
`besti`, which strictly decreases. -/
def flmExtLow (a b : List Char) (alo blo : Nat) (jv : Bool) :
    Nat → (Nat × Nat × Nat) → (Nat × Nat × Nat)
  | 0, best => best
  | fuel + 1, (bi, bj, bs) =>
    if alo < bi ∧ blo < bj ∧ isbjunk b (b.getD (bj - 1) ' ') = jv ∧
        a.getD (bi - 1) ' ' = b.getD (bj - 1) ' ' then
      flmExtLow a b alo blo jv fuel (bi - 1, bj - 1, bs + 1)
    else (bi, bj, bs)

/-- One forward extension loop of `find_longest_match`. -/
def flmExtHigh (a b : List Char) (ahi bhi : Nat) (jv : Bool) :
    Nat → (Nat × Nat × Nat) → (Nat × Nat × Nat)
  | 0, best => best
  | fuel + 1, (bi, bj, bs) =>
    if bi + bs < ahi ∧ bj + bs < bhi ∧ isbjunk b (b.getD (bj + bs) ' ') = jv ∧
        a.getD (bi + bs) ' ' = b.getD (bj + bs) ' ' then
      flmExtHigh a b ahi bhi jv fuel (bi, bj, bs + 1)
    else (bi, bj, bs)

/-- `SequenceMatcher.find_longest_match(alo, ahi, blo, bhi)`. -/
def findLongestMatch (a b : List Char) (alo ahi blo bhi : Nat) : Nat × Nat × Nat :=
  let best0 := flmOuter a b blo bhi (List.range' alo (ahi - alo)) [] (alo, blo, 0)
  let best1 := flmExtLow a b alo blo false b.length best0
  let best2 := flmExtHigh a b ahi bhi false (a.length + 1) best1
  let best3 := flmExtLow a b alo blo true b.length best2
  flmExtHigh a b ahi bhi true (a.length + 1) best3

/-- Total size of all matching blocks (what `ratio` sums); the recursion of
`get_matching_blocks` with the queue unrolled.  The fuel dominates the
interval width, which strictly shrinks on both sides of a non-empty match. -/
def matchTotal (a b : List Char) : Nat → Nat → Nat → Nat → Nat → Nat
  | 0, _, _, _, _ => 0
  | fuel + 1, alo, ahi, blo, bhi =>
    let (i, j, k) := findLongestMatch a b alo ahi blo bhi
    if k = 0 then 0
    else matchTotal a b fuel alo i blo j + k + matchTotal a b fuel (i + k) ahi (j + k) bhi

/-- `SequenceMatcher(None, a, b).ratio()` as an exact rational. -/
def smRatio (a b : List Char) : ℚ :=
  let total := a.length + b.length
  if total = 0 then 1
  else 2 * (matchTotal a b (a.length + 1) 0 a.length 0 b.length : ℚ) / (total : ℚ)

/-! ## `find_best_overlap_match` (src/modules/stt.py:997-1044) -/

/-- The candidate kept by the triple loop of `find_best_overlap_match`:
`(i, j + length, length, ratio)`, updated only when `ratio > best_ratio` and
`ratio > 0.8`, scanning `i` ascending over the last 100 words of `text1`,
`j` ascending over the first 100 words of `text2`, and `length` ascending.
`none` means no aligned span ever exceeded the 0.8 similarity threshold. -/
def bestOverlapCandidate (text1 text2 : String) (minMatchLength : Nat := 10) :
    Option (Nat × Nat × Nat × ℚ) :=
  let words1 := pyWords text1
  let words2 := pyWords text2
  let minWords := max 3 (minMatchLength / 5)
  let searchStart := words1.length - 100
  (List.range' searchStart (words1.length - searchStart)).foldl (fun best i =>
    (List.range (min words2.length 100)).foldl (fun best j =>
      (List.range' minWords (min (words1.length - i) (words2.length - j) + 1 - minWords)).foldl
        (fun best len =>
          let seq1 := String.intercalate " " ((words1.drop i).take len)
          let seq2 := String.intercalate " " ((words2.drop j).take len)
          let ratio := smRatio seq1.data seq2.data
          let bestRatio := match best with
            | some q => q.2.2.2
            | none => 0
          if ratio > bestRatio ∧ ratio > 8/10 then some (i, j + len, len, ratio) else best)
        best)
      best)
    none

/-- `find_best_overlap_match` (src/modules/stt.py:997-1044): the matched
span's start in `text1` and end in `text2` (in words), or
`(len(words1), 0)` when no span reaches the threshold. -/
def find_best_overlap_match (text1 text2 : String) (minMatchLength : Nat := 10) : Nat × Nat :=
  match bestOverlapCandidate text1 text2 minMatchLength with
  | some (i, jEnd, _, _) => (i, jEnd)
  | none => ((pyWords text1).length, 0)

/-! ## Transcript Reconciler — `merge_segment_lists` (src/modules/stt.py:1047-1139) -/

/-- The in-place time shift applied to every appended segment of a non-first
window (src/modules/stt.py:1126-1130): `start_time` is always present and
non-`None` in the producer's records; `end_time` is shifted only when not
`None`. -/
def shiftSeg (off : ℚ) (s : Seg) : Seg :=
  { s with start_time := s.start_time + off, end_time := s.end_time.map (· + off) }

/-- `" ".join(s.get("text","") for s in prev_segments[-20:])`. -/
def prevTail20Text (prev : List Seg) : String :=
  String.intercalate " " ((prev.drop (prev.length - 20)).map (·.text))

/-- `" ".join(s.get("text","") for s in segments[:20])`. -/
def currHead20Text (curr : List Seg) : String :=
  String.intercalate " " ((curr.take 20).map (·.text))

/-- The word-count cut-off scan (src/modules/stt.py:1099-1107): walk the
segments accumulating word counts; at the first prefix reaching
`curr_word_idx` return that index + 1; if the loop finishes without
breaking, `skip_until_idx` keeps its initial value 0. -/
def skipUntilAux (target : Nat) : List Seg → Nat → Nat → Option Nat
  | [], _, _ => none
  | s :: rest, idx, count =>
    let count' := count + (pyWords s.text).length
    if count' ≥ target then some (idx + 1) else skipUntilAux target rest (idx + 1) count'

def skipUntilIdx (target : Nat) (segs : List Seg) : Nat :=
  (skipUntilAux target segs 0 0).getD 0

/-- Which segments of window `idx > 0` survive, and with what (shifted)
value: position-aligned with the window, `some v` marks a kept segment
(already time-shifted, before the final id renumbering), `none` a dropped
one.  The kept ones, in order, are exactly the source's `segments_to_add`:
the text-match branch drops the prefix below `skip_until_idx`, the time-cut
branch (empty tail or head text) drops those with `start_time <
overlap_seconds`. -/
def windowSelection (prev curr : List Seg) (startOffset overlapS : ℚ) : List (Option Seg) :=
  let prevText := prevTail20Text prev
  let currText := currHead20Text curr
  if prevText ≠ "" ∧ currText ≠ "" then
    let cwi := (find_best_overlap_match prevText currText).2
    let skip := skipUntilIdx cwi curr
    (curr.take skip).map (fun _ => none) ++
      (curr.drop skip).map (fun s => some (shiftSeg startOffset s))
  else
    curr.map (fun s => if overlapS ≤ s.start_time then some (shiftSeg startOffset s) else none)

/-- `segments_to_add` (already shifted) of window `idx > 0`. -/
def mergeChunkStep (prev curr : List Seg) (startOffset overlapS : ℚ) : List Seg :=
  (windowSelection prev curr startOffset overlapS).filterMap id

/-- Per-window survival marks for the whole fold, one list entry per element
of `zip(segments_list, chunk_info_list)` in order, carrying the running
`chunk_idx`: window 0 keeps everything unshifted; later windows follow
`windowSelection` against the *original* previous window
(`segments_list[chunk_idx - 1]`); windows beyond the zip are never
iterated. -/
def mergeMarksAux (orig : List (List Seg)) (overlapS : ℚ) :
    Nat → List (List Seg) → List (ℚ × ℚ) → List (List (Option Seg))
  | _, [], _ => []
  | _, _ :: _, [] => []
  | idx, segs :: rest, info :: infos =>
    (if idx = 0 then segs.map some
     else windowSelection ((orig.drop (idx - 1)).headD []) segs info.1 overlapS) ::
      mergeMarksAux orig overlapS (idx + 1) rest infos

def mergeMarks (segsList : List (List Seg)) (chunkInfo : List (ℚ × ℚ)) (overlapS : ℚ) :
    List (List (Option Seg)) :=
  mergeMarksAux segsList overlapS 0 segsList chunkInfo

/-- Forget a segment's `id` (the one field the final renumbering overwrites);
two segments with equal `zeroId` images differ at most in their ids. -/
def zeroId (s : Seg) : Seg := { s with id := 0 }

/-- Marks aligned with a window such that every kept (shifted) value can
differ from the original element only in its `id` — the situation after a
zero-offset run, where the in-place time shift was by 0. -/
inductive MarksOk : List (Option Seg) → List Seg → Prop
  | nil : MarksOk [] []
  | consSome (v s : Seg) (h : zeroId v = zeroId s) {ms : List (Option Seg)} {ss : List Seg}
      (t : MarksOk ms ss) : MarksOk (some v :: ms) (s :: ss)
  | consNone (s : Seg) {ms : List (Option Seg)} {ss : List Seg}
      (t : MarksOk ms ss) : MarksOk (none :: ms) (s :: ss)

/-- `for idx, seg in enumerate(merged, 1): seg["id"] = idx`. -/
def renumberFrom (k : Nat) : List Seg → List Seg
  | [] => []
  | s :: rest => { s with id := k } :: renumberFrom (k + 1) rest

/-- `merge_segment_lists` (src/modules/stt.py:1047-1139): empty input gives
`[]`; a single window is returned as-is (before any renumbering); otherwise
the windows are folded in order and the merged list is renumbered 1..N. -/
def merge_segment_lists (segsList : List (List Seg)) (chunkInfo : List (ℚ × ℚ))
    (overlapS : ℚ) : List Seg :=
  match segsList with
  | [] => []
  | [s] => s
  | _ =>
    renumberFrom 1 ((mergeMarks segsList chunkInfo overlapS).flatten.filterMap id)

/-! ### The reconciler's in-place mutation of its input

`merge_segment_lists` mutates the dictionaries of `segments_list` in place:
appended segments get their times shifted (line 1126-1130) and every merged
segment gets its `id` overwritten (line 1134-1136), and those dictionaries
are the very elements of the caller's `segments_list`.  `mergeMutatedState`
returns the contents of `segments_list` after one call (the producer builds
a fresh dict per segment, so no aliasing within one window list). -/

/-- Walk one window's marks next to its original segments, carrying the next
global id: a kept segment becomes its shifted value with the new id, a
dropped one is untouched. -/
def applyIds : Nat → List (Option Seg) → List Seg → (List Seg × Nat)
  | k, [], _ => ([], k)
  | k, _ :: _, [] => ([], k)
  | k, m :: ms, s :: ss =>
    match m with
    | some v =>
      let (rest, k') := applyIds (k + 1) ms ss
      ({ v with id := k } :: rest, k')
    | none =>
      let (rest, k') := applyIds k ms ss
      (s :: rest, k')

def applyIdsWindows : Nat → List (List (Option Seg)) → List (List Seg) → List (List Seg)
  | _, [], ws => ws
  | _, _ :: _, [] => []
  | k, ms :: mss, w :: wss =>
    let (w', k') := applyIds k ms w
    w' :: applyIdsWindows k' mss wss

/-- The contents of `segments_list` after one call of `merge_segment_lists`
(the 0- and 1-window cases return before any mutation). -/
def mergeMutatedState (segsList : List (List Seg)) (chunkInfo : List (ℚ × ℚ))
    (overlapS : ℚ) : List (List Seg) :=
  match segsList with
  | [] => []
  | [s] => [s]
  | _ => applyIdsWindows 1 (mergeMarks segsList chunkInfo overlapS) segsList

/-! ## Long-Text Chunker — `create_token_based_chunks`
(src/modules/text_processing.py:73-178)

The source glues every segment into `[SEG_<id>]<text> `, splits the marked
text with langchain's `RecursiveCharacterTextSplitter` (chunk size, overlap,
separators `["\n\n", "\n", ". ", "。 ", "! ", "? ", ", ", " ", ""]`), and
rebuilds chunks from the `[SEG_(\d+)]` markers found in each piece. -/

/-- Decimal digit character. -/
def digitChar (d : Nat) : Char := Char.ofNat ('0'.toNat + d)

/-- `Python: str(n)` for a non-negative integer (decimal, no sign). -/
def natDigitsAux : Nat → Nat → List Char
  | 0, _ => []
  | fuel + 1, n =>
    if n < 10 then [digitChar n]
    else natDigitsAux fuel (n / 10) ++ [digitChar (n % 10)]

def natDigits (n : Nat) : List Char := natDigitsAux (n + 1) n

/-- `f"[SEG_{seg['id']}]"`. -/
def segMarker (s : Seg) : List Char :=
  '[' :: 'S' :: 'E' :: 'G' :: '_' :: (natDigits s.id ++ [']'])

/-- `marker + seg["text"] + " "`, one summand of `full_text_with_markers`. -/
def unitOf (s : Seg) : List Char := segMarker s ++ (s.text.data ++ [' '])

def fullTextOf (segs : List Seg) : List Char := (segs.map unitOf).flatten

/-- One attempt to match `\[SEG_(\d+)\]` at the head of the input (greedy,
which is equivalent to the regex here: the digit run is maximal and must be
followed by `]`). -/
def segMatchAt (cs : List Char) : Option (Nat × List Char) :=
  match litPrefix ('[' :: 'S' :: 'E' :: 'G' :: '_' :: []) cs with
  | none => none
  | some r1 =>
    match digits1 r1 with
    | none => none
    | some (n, r2) =>
      match r2 with
      | [] => none
      | c :: rem => if c = ']' then some (n, rem) else none

/-- `re.findall(r'\[SEG_(\d+)\]', chunk_text)` scanning. -/
def segScan : Nat → List Char → List Nat
  | 0, _ => []
  | _, [] => []
  | fuel + 1, c :: rest =>
    match segMatchAt (c :: rest) with
    | some (n, rem) => n :: segScan fuel rem
    | none => segScan fuel rest

def findSegIds (cs : List Char) : List Nat := segScan cs.length cs

/-- `re.sub(r'\[SEG_\d+\]', '', chunk_text)`. -/
def stripSegMarkers : Nat → List Char → List Char
  | 0, cs => cs
  | _ + 1, [] => []
  | fuel + 1, c :: rest =>
    match segMatchAt (c :: rest) with
    | some (_, rem) => stripSegMarkers fuel rem
    | none => c :: stripSegMarkers fuel rest

def sentEndCh (c : Char) : Bool := c == '.' || c == '。' || c == '!' || c == '?'

/-- `re.search(r'[.。!?]\s+', clean_text)`: first sentence-ending punctuation
followed by whitespace; on a match the text after the (greedy) whitespace
run remains. -/
def dropLeadingPartialSentence (cs : List Char) : List Char :=
  go cs cs
where
  go (orig : List Char) : List Char → List Char
    | [] => orig
    | c :: rest =>
      if sentEndCh c then
        match rest with
        | d :: _ => if isWs d then dropWs rest else go orig rest
        | [] => orig
      else go orig rest

/-- `segment_map` lookup: the dict is written in segment order, so on
duplicate ids the *last* segment wins. -/
def lookupSeg (segs : List Seg) (sid : Nat) : Option Seg :=
  segs.reverse.find? (fun s => s.id = sid)

/-- `Python: sorted(list(set(strings)))` (speaker labels). -/
def sortedDedupStr (xs : List String) : List String :=
  (xs.dedup).insertionSort (· ≤ ·)

structure Chunk where
  chunk_id : Nat
  text : String
  segment_ids : List Nat
  start_time : ℚ
  end_time : Option ℚ
  speakers : List String
  confidence : ℚ
deriving DecidableEq

/-! ### The text splitter, modelled from the spec

Modelled from the spec: the splitter the source calls
(`RecursiveCharacterTextSplitter` from `langchain_text_splitters`) is a
third-party dependency whose code is not part of this repository.  Spec
§4.5 describes it as a greedy/recursive splitter configured with a maximum
chunk size (characters), an inter-chunk overlap (characters), and an
ordered list of preferred break points (paragraph, then sentence-ending
punctuation, then whitespace, then hard cut), always preferring the
earliest-listed break type that fits within the size budget.  The model
below: each fragment starts `overlap` characters before the previous
fragment's end, extends at most `size` characters, ends at the last
occurrence of the earliest-listed separator that yields progress (else a
hard character cut), and the final fragment ends at the end of the text. -/

/-- The configured separators of src/modules/text_processing.py:103, in
preference order (the trailing `""` is the hard cut). -/
def chunkSeparators : List (List Char) :=
  [['\n', '\n'], ['\n'], ['.', ' '], ['。', ' '], ['!', ' '], ['?', ' '], [',', ' '], [' ']]

/-- Does `sep` occur in `text` ending exactly at position `e`? -/
def sepEndsAt (text sep : List Char) (e : Nat) : Bool :=
  sep.length ≤ e && ((text.drop (e - sep.length)).take sep.length) = sep

/-- Latest `e` with `lo < e ≤ hi` at which `sep` ends (searching downward). -/
def findLastSepEnd (text sep : List Char) (lo : Nat) : Nat → Option Nat
  | 0 => none
  | hi + 1 =>
    if hi + 1 ≤ lo then none
    else if sepEndsAt text sep (hi + 1) then some (hi + 1)
    else findLastSepEnd text sep lo hi

/-- The break position for the window `(lo, hi]`: earliest-listed separator
class with an occurrence, latest occurrence within the class. -/
def chooseBreak (text : List Char) (lo hi : Nat) : List (List Char) → Option Nat
  | [] => none
  | sep :: rest =>
    match findLastSepEnd text sep lo hi with
    | some e => some e
    | none => chooseBreak text lo hi rest

/-- Modelled from the spec: the splitter's fragment boundaries as
`(start, end)` index pairs over the text (see the section comment).  `pe`
is the previous fragment's end; each fragment starts at `pe - overlap`.
The fuel exceeds the text length; every step advances `pe` when
`overlap < size`. -/
def splitPieces (text : List Char) (size overlap : Nat) : Nat → Nat → List (Nat × Nat)
  | 0, _ => []
  | fuel + 1, pe =>
    let cs := pe - overlap
    if text.length ≤ cs + size then [(cs, text.length)]
    else
      let e := match chooseBreak text pe (cs + size) chunkSeparators with
        | some e => e
        | none => cs + size
      (cs, e) :: splitPieces text size overlap fuel e

/-- Modelled from the spec: `splitter.split_text(full_text_with_markers)`. -/
def split_text (size overlap : Nat) (text : List Char) : List (List Char) :=
  (splitPieces text size overlap (text.length + 1) 0).map
    (fun p => (text.drop p.1).take (p.2 - p.1))

/-- The body of the per-piece loop of `create_token_based_chunks`
(src/modules/text_processing.py:107-170), on one `(chunk_idx, piece)` pair.
A piece whose marker list is empty, or whose markers all miss the segment
map, is skipped (`continue`) while `chunk_id` keeps counting pieces. -/
def chunkOfPiece (segs : List Seg) (p : Nat × List Char) : Option Chunk :=
  let chunkIdx := p.1
  let segIds := findSegIds p.2
  if segIds = [] then none
  else
    let clean0 := stripWs (stripSegMarkers p.2.length p.2)
    let cleanText := if 0 < chunkIdx then stripWs (dropLeadingPartialSentence clean0)
      else clean0
    let cited := segIds.filterMap (lookupSeg segs)
    match cited with
    | [] => none
    | c0 :: crest =>
      let lastSeg := (c0 :: crest).getLast (by simp)
      let endTime :=
        match (segs.enum.find? (fun q => q.2.id = lastSeg.id)) with
        | some (i, _) =>
          match segs.drop (i + 1) with
          | next :: _ => some next.start_time
          | [] => none
        | none => none
      some
        { chunk_id := chunkIdx
          text := String.mk cleanText
          segment_ids := segIds
          start_time := (crest.map (·.start_time)).foldl min c0.start_time
          end_time := endTime
          speakers := sortedDedupStr ((c0 :: crest).map (·.speaker))
          confidence := ((c0 :: crest).map (·.confidence)).sum / (c0 :: crest).length }

/-- `create_token_based_chunks` (src/modules/text_processing.py:73-178).
The final log line divides by `len(chunks)`, so a run whose chunks all got
skipped returns `[]` through the surrounding `except` — the same value the
crash-free path would return. -/
def create_token_based_chunks (segs : List Seg) (chunk_size : Nat := 500)
    (chunk_overlap : Nat := 100) : List Chunk :=
  if segs = [] then []
  else
    (split_text chunk_size chunk_overlap (fullTextOf segs)).enum.filterMap
      (chunkOfPiece segs)

/-! ### The JSON payload parser and the recovery chain of `recognize_with_gemini`

Modelled from the spec (and the Python standard library it names): the
payload parser the source calls is `json.loads`; the model below covers the
JSON subset the adapter's payloads use (strings with the simple
one-character escapes, integers and decimal fractions without exponents,
arrays, objects, `null`/`true`/`false`) and reports the two error kinds the
recovery chain of src/modules/stt.py:564-727 distinguishes: an
`Expecting ',' delimiter` error and an `Unterminated string starting at`
error carrying the position of the opening quote; every other parse failure
is `otherErr`.  Inputs outside the subset fail with `otherErr`, which the
chain treats like any other unrecovered error. -/

def lbraceCh : Char := Char.ofNat 123

def rbraceCh : Char := Char.ofNat 125

def backquoteCh : Char := Char.ofNat 96

/-- `json.decoder.WHITESPACE`: only space, tab, newline, carriage return. -/
def jsonWsCh (c : Char) : Bool := c = ' ' || c = '\t' || c = '\n' || c = '\r'

def jskipWs : List Char → Nat → List Char × Nat
  | [], pos => ([], pos)
  | c :: rest, pos => if jsonWsCh c then jskipWs rest (pos + 1) else (c :: rest, pos)

inductive JErr where
  | unterminatedString : Nat → JErr
  | expectingComma : Nat → JErr
  | otherErr : Nat → JErr

inductive JValue where
  | jnull : JValue
  | jbool : Bool → JValue
  | jnum : ℚ → JValue
  | jstr : List Char → JValue
  | jarr : List JValue → JValue
  | jobj : List (List Char × JValue) → JValue

/-- `py_scanstring` after the opening quote (which sat at absolute position
`q`): content up to the closing quote, with the one-character escapes; a
missing terminator is the `Unterminated string starting at` error at `q`. -/
def parseJString (q : Nat) : List Char → Nat → Except JErr (List Char × List Char × Nat)
  | [], _ => .error (.unterminatedString q)
  | c :: rest, pos =>
    if c = '"' then .ok ([], rest, pos + 1)
    else if c = '\\' then
      match rest with
      | [] => .error (.unterminatedString q)
      | e :: rest2 =>
        let esc : Option Char :=
          if e = '"' then some '"' else if e = '\\' then some '\\'
          else if e = '/' then some '/' else if e = 'b' then some '\x08'
          else if e = 'f' then some '\x0c' else if e = 'n' then some '\n'
          else if e = 'r' then some '\r' else if e = 't' then some '\t'
          else none
        match esc with
        | some ec =>
          match parseJString q rest2 (pos + 2) with
          | .ok (s, r, p) => .ok (ec :: s, r, p)
          | .error err => .error err
        | none => .error (.otherErr pos)
    else if c.toNat < 32 then .error (.otherErr pos)
    else
      match parseJString q rest (pos + 1) with
      | .ok (s, r, p) => .ok (c :: s, r, p)
      | .error err => .error err

/-- `NUMBER_RE` without exponents: `-?(0|[1-9]\d+|\d)(\.\d+)?` as a rational. -/
def parseJNumber (cs : List Char) (pos : Nat) : Option (ℚ × List Char × Nat) :=
  let sgn : Bool × List Char × Nat :=
    match cs with
    | '-' :: r => (true, r, pos + 1)
    | _ => (false, cs, pos)
  match sgn.2.1 with
  | c :: _ =>
    if isDigitCh c then
      let ip : List Char × List Char :=
        if c = '0' then (['0'], sgn.2.1.drop 1) else takeDigits sgn.2.1
      let pos2 := sgn.2.2 + ip.1.length
      let iv : ℚ := (digitsVal ip.1 : ℚ)
      let signed : ℚ → ℚ := fun v => if sgn.1 then -v else v
      match ip.2 with
      | '.' :: r2 =>
        let fd := takeDigits r2
        if fd.1 = [] then some (signed iv, ip.2, pos2)
        else some (signed (iv + (digitsVal fd.1 : ℚ) / ((10 ^ fd.1.length : Nat) : ℚ)),
          fd.2, pos2 + 1 + fd.1.length)
      | _ => some (signed iv, ip.2, pos2)
    else none
  | [] => none

/-- The scanner state: which grammar production is being read.  `members`
and `elems` are the key/value loop of `JSONObject` and the element loop of
`JSONArray`; their accumulators travel as extra arguments of `parseJ`. -/
inductive JMode where
  | val : JMode
  | obj : JMode
  | members : JMode
  | arr : JMode
  | elems : JMode

/-- The recursive scanner (`scan_once` / `JSONObject` / `JSONArray`), fueled
so that the recursion is structural and reduces: `val` dispatches on the
first character (no leading whitespace), `obj`/`arr` are entered just after
the opening brace/bracket, `members` starts at the quote of a key. -/
def parseJ : Nat → JMode → List Char → Nat → List (List Char × JValue) → List JValue →
    Except JErr (JValue × List Char × Nat)
  | 0, _, _, pos, _, _ => .error (.otherErr pos)
  | fuel + 1, .val, cs, pos, _, _ =>
    (match cs with
    | [] => .error (.otherErr pos)
    | c :: rest =>
      if c = '"' then
        match parseJString pos rest (pos + 1) with
        | .ok (s, r, p) => .ok (.jstr s, r, p)
        | .error e => .error e
      else if c = lbraceCh then parseJ fuel .obj rest (pos + 1) [] []
      else if c = '[' then parseJ fuel .arr rest (pos + 1) [] []
      else if (litPrefix ['n', 'u', 'l', 'l'] cs).isSome then .ok (.jnull, cs.drop 4, pos + 4)
      else if (litPrefix ['t', 'r', 'u', 'e'] cs).isSome then
        .ok (.jbool true, cs.drop 4, pos + 4)
      else if (litPrefix ['f', 'a', 'l', 's', 'e'] cs).isSome then
        .ok (.jbool false, cs.drop 5, pos + 5)
      else
        match parseJNumber cs pos with
        | some (q, r, p) => .ok (.jnum q, r, p)
        | none => .error (.otherErr pos))
  | fuel + 1, .obj, cs, pos, _, _ =>
    (match jskipWs cs pos with
    | (c :: rest, pos1) =>
      if c = rbraceCh then .ok (.jobj [], rest, pos1 + 1)
      else if c = '"' then parseJ fuel .members (c :: rest) pos1 [] []
      else .error (.otherErr pos1)
    | ([], pos1) => .error (.otherErr pos1))
  | fuel + 1, .members, cs, pos, acc, _ =>
    (match cs with
    | c :: rest =>
      if c = '"' then
        match parseJString pos rest (pos + 1) with
        | .error e => .error e
        | .ok (key, r1, p1) =>
          match jskipWs r1 p1 with
          | (':' :: r3, p2) =>
            match jskipWs r3 (p2 + 1) with
            | (r4, p4) =>
              match parseJ fuel .val r4 p4 [] [] with
              | .error e => .error e
              | .ok (v, r5, p5) =>
                match jskipWs r5 p5 with
                | (c2 :: r7, p6) =>
                  if c2 = rbraceCh then .ok (.jobj (acc ++ [(key, v)]), r7, p6 + 1)
                  else if c2 = ',' then
                    match jskipWs r7 (p6 + 1) with
                    | (r8, p8) => parseJ fuel .members r8 p8 (acc ++ [(key, v)]) []
                  else .error (.expectingComma p6)
                | ([], p6) => .error (.expectingComma p6)
          | (_, p2) => .error (.otherErr p2)
      else .error (.otherErr pos)
    | [] => .error (.otherErr pos))
  | fuel + 1, .arr, cs, pos, _, _ =>
    (match jskipWs cs pos with
    | (']' :: rest, pos1) => .ok (.jarr [], rest, pos1 + 1)
    | (cs1, pos1) => parseJ fuel .elems cs1 pos1 [] [])
  | fuel + 1, .elems, cs, pos, _, acc =>
    (match parseJ fuel .val cs pos [] [] with
    | .error e => .error e
    | .ok (v, r1, p1) =>
      match jskipWs r1 p1 with
      | (c :: r3, p2) =>
        if c = ']' then .ok (.jarr (acc ++ [v]), r3, p2 + 1)
        else if c = ',' then
          match jskipWs r3 (p2 + 1) with
          | (r4, p4) => parseJ fuel .elems r4 p4 [] (acc ++ [v])
        else .error (.expectingComma p2)
      | ([], p2) => .error (.expectingComma p2))

/-- `json.loads`: skip leading whitespace, scan one value, then require only
whitespace to remain (`Extra data` otherwise). -/
def pyJsonLoads (cs : List Char) : Except JErr JValue :=
  match jskipWs cs 0 with
  | (cs1, pos1) =>
    match parseJ (cs.length + 1) .val cs1 pos1 [] [] with
    | .error e => .error e
    | .ok (v, r, p) =>
      match jskipWs r p with
      | ([], _) => .ok v
      | (_, p2) => .error (.otherErr p2)

/-- The string-value scan of the field regex
`"(text|start_time)":\s*"([^"]*(?:\\.[^"]*)*)"` (stt.py:546): because
`[^"]*` is greedy and nothing follows the final quote, the value always
ends at the first quote character, whether or not a backslash precedes it. -/
def scanToQuote : List Char → Option (List Char × List Char)
  | [] => none
  | c :: rest =>
    if c = '"' then some ([], rest)
    else
      match scanToQuote rest with
      | some (v, r) => some (c :: v, r)
      | none => none

/-- One attempted match of the field regex at the head of the input:
`(name, value, rest-after-match)`. -/
def fieldMatchAt (cs : List Char) : Option (List Char × List Char × List Char) :=
  let tryName : List Char → Option (List Char × List Char) := fun nm =>
    match litPrefix nm cs with
    | none => none
    | some r1 =>
      match r1 with
      | ':' :: r2 =>
        match dropWs r2 with
        | '"' :: r3 => scanToQuote r3
        | _ => none
      | _ => none
  match tryName ['"', 't', 'e', 'x', 't', '"'] with
  | some (v, r) => some (['t', 'e', 'x', 't'], v, r)
  | none =>
    match tryName ['"', 's', 't', 'a', 'r', 't', '_', 't', 'i', 'm', 'e', '"'] with
    | some (v, r) => some (['s', 't', 'a', 'r', 't', '_', 't', 'i', 'm', 'e'], v, r)
    | none => none

def hexDigitCh (n : Nat) : Char :=
  if n < 10 then digitChar n else Char.ofNat ('a'.toNat + (n - 10))

/-- `escape_control_chars` (stt.py:517-532), applied per character of a
field value (`re.sub(r"[\x00-\x1f]", ...)` touches only control chars). -/
def escCtrlChar (c : Char) : List Char :=
  if c = '\n' then ['\\', 'n']
  else if c = '\r' then ['\\', 'r']
  else if c = '\t' then ['\\', 't']
  else if c = '\x08' then ['\\', 'b']
  else if c = '\x0c' then ['\\', 'f']
  else if c.toNat < 32 then
    ['\\', 'u', '0', '0', hexDigitCh (c.toNat / 16), hexDigitCh (c.toNat % 16)]
  else [c]

def escCtrl (cs : List Char) : List Char := (cs.map escCtrlChar).flatten

/-- `fix_text_field` applied by `re.sub` over the whole text (stt.py:537-550):
each matched `"name": "value"` field is rewritten with a single space after
the colon and control characters of the value escaped. -/
def fieldFix : Nat → List Char → List Char
  | 0, cs => cs
  | fuel + 1, cs =>
    match cs with
    | [] => []
    | c :: rest =>
      match fieldMatchAt (c :: rest) with
      | some (nm, v, r) =>
        ('"' :: (nm ++ ['"', ':', ' ', '"'] ++ escCtrl v ++ ['"'])) ++ fieldFix fuel r
      | none => c :: fieldFix fuel rest

/-- One attempted match of `}\s*\n\s*{` (with `requireNl`) or `}\s+{`
(without) at the head: both fire exactly when a brace pair is separated by a
whitespace run that is, respectively, newline-containing or non-empty. -/
def braceFixMatch (requireNl : Bool) (cs : List Char) : Option (List Char) :=
  match cs with
  | c :: rest =>
    if c = rbraceCh then
      let run := rest.takeWhile (fun ch => isWs ch)
      let rest2 := rest.dropWhile (fun ch => isWs ch)
      let ok := if requireNl then run.any (fun ch => ch = '\n') else !run.isEmpty
      match rest2 with
      | d :: rest3 => if d = lbraceCh then (if ok then some rest3 else none) else none
      | [] => none
    else none
  | [] => none

/-- `re.sub(r"}\s*\n\s*{", "},\n{", ...)` / `re.sub(r"}\s+{", "},\n{", ...)`
(stt.py:559-560 and 604-605). -/
def braceFix (requireNl : Bool) : Nat → List Char → List Char
  | 0, cs => cs
  | _ + 1, [] => []
  | fuel + 1, c :: rest =>
    match braceFixMatch requireNl (c :: rest) with
    | some r => (rbraceCh :: ',' :: '\n' :: lbraceCh :: []) ++ braceFix requireNl fuel r
    | none => c :: braceFix requireNl fuel rest

/-- Both comma-insertion passes in source order. -/
def braceFixes (cs : List Char) : List Char :=
  braceFix false (braceFix true cs.length cs).length (braceFix true cs.length cs)

/-- `try_parse_json` (stt.py:583-598): parse, and on failure re-apply the
field fix and parse once more; `None` if both fail. -/
def try_parse_json (cs : List Char) : Option JValue :=
  match pyJsonLoads cs with
  | .ok v => some v
  | .error _ =>
    match pyJsonLoads (fieldFix cs.length cs) with
    | .ok v => some v
    | .error _ => none

/-- `Python: text.rfind(c)`: index of the last occurrence. -/
def rfindCh (c : Char) (cs : List Char) : Option Nat :=
  (cs.enum.filterMap (fun p => if p.2 = c then some p.1 else none)).getLast?

/-- The depth scan of recovery tier 3 (stt.py:661-669): the last index at
which a closing brace returns the running depth to zero. -/
def lastBalancedPos (text : List Char) : Option Nat :=
  (text.enum.foldl (fun (st : Int × Option Nat) p =>
    if p.2 = lbraceCh then (st.1 + 1, st.2)
    else if p.2 = rbraceCh then (st.1 - 1, if st.1 - 1 = 0 then some p.1 else st.2)
    else st) ((0 : Int), none)).2

def rstripCommas (cs : List Char) : List Char :=
  (cs.reverse.dropWhile (fun c => c = ',')).reverse

/-- Recovery tier 4 (stt.py:679-709): accumulate lines until the brace depth
returns to zero, then keep every chunk that parses to a non-empty object. -/
def tier4 (text : List Char) : Option JValue :=
  let st := (splitOnChar '\n' text).foldl
    (fun (st : List Char × Int × List JValue) line =>
      let cur := st.1 ++ line
      let depth := st.2.1 + ((line.filter (fun c => c = lbraceCh)).length : Int) -
        ((line.filter (fun c => c = rbraceCh)).length : Int)
      if depth = 0 ∧ stripWs cur ≠ [] then
        let items :=
          match try_parse_json (rstripCommas (stripWs cur)) with
          | some (.jobj (q :: qs)) => st.2.2 ++ [JValue.jobj (q :: qs)]
          | _ => st.2.2
        ([], depth, items)
      else (cur, depth, st.2.2)) ([], (0 : Int), [])
  match st.2.2 with
  | [] => none
  | q :: qs => some (.jarr (q :: qs))

/-- The parse-and-recover chain of stt.py:564-718, from the pre-processed
text to the parsed value (`none` is the `return None` of line 718). -/
def recoverJson (text : List Char) : Option JValue :=
  match pyJsonLoads text with
  | .ok v => some v
  | .error e =>
    let r0 : Option JValue :=
      match e with
      | .expectingComma _ => try_parse_json (braceFixes text)
      | _ => none
    match r0 with
    | some v => some v
    | none =>
      let r05 : Option JValue :=
        match e with
        | .unterminatedString p =>
          match rfindCh rbraceCh (text.take p) with
          | some i =>
            if 0 < i then try_parse_json ((text.take p).take (i + 1) ++ ['\n', ']'])
            else none
          | none => none
        | _ => none
      match r05 with
      | some v => some v
      | none =>
        let r1 : Option JValue :=
          match text with
          | '[' :: _ =>
            if text.getLast? = some ']' then none
            else
              match rfindCh rbraceCh text with
              | some i =>
                if 0 < i then try_parse_json (text.take (i + 1) ++ ['\n', ']']) else none
              | none => none
          | _ => none
        match r1 with
        | some v => some v
        | none =>
          let r2 : Option JValue :=
            if ',' ∈ text then
              match rfindCh ',' text with
              | some i => try_parse_json (text.take i ++ ['\n', ']'])
              | none => none
            else none
          match r2 with
          | some v => some v
          | none =>
            let r3 : Option JValue :=
              match text with
              | '[' :: _ =>
                match lastBalancedPos text with
                | some i =>
                  if 0 < i then try_parse_json (text.take (i + 1) ++ ['\n', ']']) else none
                | none => none
              | _ => none
            match r3 with
            | some v => some v
            | none => tier4 text

/-- Python dict built from JSON object pairs: on duplicate keys the last
occurrence wins; `.get` of a missing key falls to the default. -/
def jobjGet (pairs : List (List Char × JValue)) (key : List Char) : Option JValue :=
  (pairs.reverse.find? (fun p => p.1 = key)).map (fun p => p.2)

def intDigits (i : Int) : List Char :=
  if i < 0 then '-' :: natDigits (-i).toNat else natDigits i.toNat

/-- `Python: str(value)` on the JSON values the adapter's payloads contain
(integers, strings, booleans, null); non-integer numbers are outside the
modelled subset. -/
def pyStrOfJ (v : JValue) : Option String :=
  match v with
  | .jstr s => some (String.mk s)
  | .jnum q => if q.den = 1 then some (String.mk (intDigits q.num)) else none
  | .jbool b => some (if b then "True" else "False")
  | .jnull => some "None"
  | _ => none

/-- `Python: float(value)` on numbers and booleans; other types are outside
the modelled subset. -/
def pyFloatOfJ (v : JValue) : Option ℚ :=
  match v with
  | .jnum q => some q
  | .jbool b => some (if b then 1 else 0)
  | _ => none

/-- `parse_mmss_to_seconds(item.get("start_time", "0:00:000"))`: a non-string
value hits the parser's bare `except` and yields 0.0. -/
def startTimeOfItem (item : List (List Char × JValue)) : ℚ :=
  match jobjGet item ['s', 't', 'a', 'r', 't', '_', 't', 'i', 'm', 'e'] with
  | some (.jstr s) => parse_mmss_to_seconds (String.mk s)
  | some _ => 0
  | none => parse_mmss_to_seconds "0:00:000"

/-- One iteration of the segment loop (stt.py:731-754). -/
def segOfItem (idx : Nat) (item : List (List Char × JValue)) (endTime : Option ℚ) :
    Option Seg :=
  match pyStrOfJ ((jobjGet item ['s', 'p', 'e', 'a', 'k', 'e', 'r']).getD
      (.jstr ['U', 'n', 'k', 'n', 'o', 'w', 'n'])) with
  | none => none
  | some spk =>
    match pyFloatOfJ ((jobjGet item ['c', 'o', 'n', 'f', 'i', 'd', 'e', 'n', 'c', 'e']).getD
        (.jnum 0)) with
    | none => none
    | some conf =>
      match (jobjGet item ['t', 'e', 'x', 't']).getD (.jstr []) with
      | .jstr t => some ⟨idx + 1, spk, startTimeOfItem item, endTime, conf, String.mk t⟩
      | _ => none

def itemsAsObjs : List JValue → Option (List (List (List Char × JValue)))
  | [] => some []
  | .jobj ps :: rest => (itemsAsObjs rest).map (fun l => ps :: l)
  | _ => none

/-- The segment loop of stt.py:729-754: each item becomes a segment with
`id = idx + 1`, the end time taken from the next item's start time, or from
`audio_duration` for the last item. -/
def segmentsOfResult (items : List JValue) (audio_duration : Option ℚ) :
    Option (List Seg) :=
  match itemsAsObjs items with
  | none => none
  | some objs =>
    objs.enum.mapM (fun p =>
      let endTime :=
        if p.1 < objs.length - 1 then some (startTimeOfItem ((objs.drop (p.1 + 1)).headD []))
        else audio_duration
      segOfItem p.1 p.2 endTime)

/-- The response-to-segments path of `recognize_with_gemini`
(stt.py:477-754): strip, remove markdown fences, escape control characters
inside `text`/`start_time` fields, insert missing commas between objects,
parse with the recovery chain, convert to segments.  `none` covers every
`return None` of the source and the inputs outside the modelled subset. -/
def recognize_parse (raw : String) (audio_duration : Option ℚ) : Option (List Seg) :=
  let t := stripWs raw.data
  if t = [] then none
  else
    let t1 :=
      match litPrefix [backquoteCh, backquoteCh, backquoteCh, 'j', 's', 'o', 'n'] t with
      | some _ => t.drop 7
      | none =>
        match litPrefix [backquoteCh, backquoteCh, backquoteCh] t with
        | some _ => t.drop 3
        | none => t
    let t2 :=
      if 3 ≤ t1.length ∧ t1.drop (t1.length - 3) = [backquoteCh, backquoteCh, backquoteCh]
      then t1.take (t1.length - 3) else t1
    let t3 := stripWs t2
    if t3 = [] then none
    else
      match recoverJson (braceFixes (fieldFix t3.length t3)) with
      | some (.jarr items) => segmentsOfResult items audio_duration
      | some _ => none
      | none => none

/-- The exact provider payload of the C8 example (truncated mid-string). -/
def c8payload : String :=
  "[\x7b\"speaker\":1,\"start_time\":\"0:00:00\",\"confidence\":0.9,\"text\":\"Hi\"\x7d,\x7b\"speaker\":2,\"start_time\":\"0:00:05\",\"confidence\":0.8,\"text\":\"Hel"

/-!
#### END OF DEFINITIONS MARKER (new definitions are inserted above this line)
-/

/-! ## Helper lemmas about the character-level plumbing -/

theorem dropWs_of_forall {cs : List Char} (h : ∀ c ∈ cs, isWs c = false) :
    dropWs cs = cs := by
  match cs with
  | [] => rfl
  | c :: rest =>
    rw [dropWs, h c (List.mem_cons_self c rest)]
    simp

theorem stripWs_of_forall {cs : List Char} (h : ∀ c ∈ cs, isWs c = false) :
    stripWs cs = cs := by
  have hrev : ∀ c ∈ cs.reverse, isWs c = false := fun c hc => h c (List.mem_reverse.mp hc)
  rw [stripWs, dropWs_of_forall hrev, List.reverse_reverse, dropWs_of_forall h]

theorem isWs_of_isDigitCh {c : Char} (h : isDigitCh c = true) : isWs c = false := by
  rw [isDigitCh] at h
  have h0 : '0' ≤ c := by
    cases hb : ('0' ≤ c : Bool) with
    | true => exact of_decide_eq_true hb
    | false => rw [Bool.and_eq_true] at h; rw [h.1] at hb; cases hb
  rw [isWs]
  have : ∀ w : Char, w < '0' → (c == w) = false := by
    intro w hw
    cases hcw : (c == w) with
    | true => exact absurd (of_decide_eq_true hcw ▸ h0) (not_le.mpr hw)
    | false => rfl
  rw [this ' ' (by decide), this '\n' (by decide), this '\t' (by decide),
    this '\r' (by decide), this '\x0b' (by decide), this '\x0c' (by decide)]
  rfl

theorem pyInt_digits {ds : List Char} (hne : ds ≠ []) (hd : ds.all isDigitCh) :
    pyInt ds = some ((digitsVal ds : Int)) := by
  have hall : ∀ c ∈ ds, isDigitCh c = true := fun c hc => List.all_eq_true.mp hd c hc
  have hstrip : stripWs ds = ds :=
    stripWs_of_forall (fun c hc => isWs_of_isDigitCh (hall c hc))
  unfold pyInt
  rw [hstrip]
  split
  · exact absurd (hall '-' (List.mem_cons_self _ _)) (by decide)
  · exact absurd (hall '+' (List.mem_cons_self _ _)) (by decide)
  · simp [digitsOpt, hne, hd]

theorem splitOnChar_not_mem {sep : Char} {xs : List Char} (h : sep ∉ xs) :
    splitOnChar sep xs = [xs] := by
  induction xs with
  | nil => rfl
  | cons x rest ih =>
    have hx : x ≠ sep := fun e => h (e ▸ List.mem_cons_self x rest)
    have hrest : sep ∉ rest := fun e => h (List.mem_cons_of_mem x e)
    rw [splitOnChar, if_neg hx, ih hrest]

theorem splitOnChar_append {sep : Char} {xs ys : List Char} (h : sep ∉ xs) :
    splitOnChar sep (xs ++ sep :: ys) = xs :: splitOnChar sep ys := by
  induction xs with
  | nil => simp [splitOnChar]
  | cons x rest ih =>
    have hx : x ≠ sep := fun e => h (e ▸ List.mem_cons_self x rest)
    have hrest : sep ∉ rest := fun e => h (List.mem_cons_of_mem x e)
    rw [List.cons_append, splitOnChar, if_neg hx, ih hrest]

theorem not_mem_of_all_digits {ds : List Char} (hd : ds.all isDigitCh)
    {c : Char} (hc : isDigitCh c = false) : c ∉ ds := by
  intro hmem
  exact absurd (List.all_eq_true.mp hd c hmem) (by simp [hc])

theorem contains_eq_false {c : Char} {cs : List Char} (h : c ∉ cs) :
    cs.contains c = false := by
  induction cs with
  | nil => rfl
  | cons x rest ih =>
    have hx : ¬ (x == c) := fun e => h (by rw [eq_of_beq e]; exact List.mem_cons_self _ _)
    simp only [List.contains_cons, Bool.or_eq_false_iff]
    exact ⟨by simpa using fun e => hx (by simp [e]), ih (fun m => h (List.mem_cons_of_mem _ m))⟩

theorem contains_eq_true {c : Char} {cs : List Char} (h : c ∈ cs) :
    cs.contains c = true := by
  induction cs with
  | nil => cases h
  | cons x rest ih =>
    simp only [List.contains_cons, Bool.or_eq_true]
    rcases List.mem_cons.mp h with h1 | h2
    · exact Or.inl (by simp [h1])
    · exact Or.inr (ih h2)

theorem digit_not_colon {ds : List Char} (h : DigitField ds) : ':' ∉ ds :=
  not_mem_of_all_digits h.2 (by decide)

theorem digit_not_dot {ds : List Char} (h : DigitField ds) : '.' ∉ ds :=
  not_mem_of_all_digits h.2 (by decide)

theorem pyInt_df {ds : List Char} (h : DigitField ds) :
    pyInt ds = some ((digitsVal ds : Int)) := pyInt_digits h.1 h.2

theorem parse_fmt_hms {hs ms ss : List Char}
    (h1 : DigitField hs) (h2 : DigitField ms) (h3 : DigitField ss) :
    parse_mmss_to_seconds ⟨hs ++ (':' :: (ms ++ (':' :: ss)))⟩ =
      (digitsVal hs : ℚ) * 3600 + (digitsVal ms : ℚ) * 60 + (digitsVal ss : ℚ) := by
  have hnd : ('.' : Char) ∉ hs ++ (':' :: (ms ++ (':' :: ss))) := by
    intro hmem
    rcases List.mem_append.mp hmem with h | h
    · exact digit_not_dot h1 h
    · rcases List.mem_cons.mp h with h | h
      · exact absurd h (by decide)
      · rcases List.mem_append.mp h with h | h
        · exact digit_not_dot h2 h
        · rcases List.mem_cons.mp h with h | h
          · exact absurd h (by decide)
          · exact digit_not_dot h3 h
  rw [parse_mmss_to_seconds]
  show (parseMmssAttempt (hs ++ (':' :: (ms ++ (':' :: ss))))).getD 0 = _
  rw [parseMmssAttempt, contains_eq_false hnd]
  simp only [Bool.false_eq_true, if_false]
  rw [splitOnChar_append (digit_not_colon h1), splitOnChar_append (digit_not_colon h2),
    splitOnChar_not_mem (digit_not_colon h3)]
  simp [pyInt_df h1, pyInt_df h2, pyInt_df h3]

theorem parse_fmt_ms {ms ss : List Char} (h2 : DigitField ms) (h3 : DigitField ss) :
    parse_mmss_to_seconds ⟨ms ++ (':' :: ss)⟩ =
      (digitsVal ms : ℚ) * 60 + (digitsVal ss : ℚ) := by
  have hnd : ('.' : Char) ∉ ms ++ (':' :: ss) := by
    intro hmem
    rcases List.mem_append.mp hmem with h | h
    · exact digit_not_dot h2 h
    · rcases List.mem_cons.mp h with h | h
      · exact absurd h (by decide)
      · exact digit_not_dot h3 h
  rw [parse_mmss_to_seconds]
  show (parseMmssAttempt (ms ++ (':' :: ss))).getD 0 = _
  rw [parseMmssAttempt, contains_eq_false hnd]
  simp only [Bool.false_eq_true, if_false]
  rw [splitOnChar_append (digit_not_colon h2), splitOnChar_not_mem (digit_not_colon h3)]
  simp [pyInt_df h2, pyInt_df h3]

theorem parse_fmt_hms_colon_ms {hs ms ss msf : List Char}
    (h1 : DigitField hs) (h2 : DigitField ms) (h3 : DigitField ss) (h4 : DigitField msf) :
    parse_mmss_to_seconds ⟨hs ++ (':' :: (ms ++ (':' :: (ss ++ (':' :: msf)))))⟩ =
      (digitsVal hs : ℚ) * 3600 + (digitsVal ms : ℚ) * 60 + (digitsVal ss : ℚ) +
        (digitsVal msf : ℚ) / 1000 := by
  have hnd : ('.' : Char) ∉ hs ++ (':' :: (ms ++ (':' :: (ss ++ (':' :: msf))))) := by
    intro hmem
    rcases List.mem_append.mp hmem with h | h
    · exact digit_not_dot h1 h
    · rcases List.mem_cons.mp h with h | h
      · exact absurd h (by decide)
      · rcases List.mem_append.mp h with h | h
        · exact digit_not_dot h2 h
        · rcases List.mem_cons.mp h with h | h
          · exact absurd h (by decide)
          · rcases List.mem_append.mp h with h | h
            · exact digit_not_dot h3 h
            · rcases List.mem_cons.mp h with h | h
              · exact absurd h (by decide)
              · exact digit_not_dot h4 h
  rw [parse_mmss_to_seconds]
  show (parseMmssAttempt _).getD 0 = _
  rw [parseMmssAttempt, contains_eq_false hnd]
  simp only [Bool.false_eq_true, if_false]
  rw [splitOnChar_append (digit_not_colon h1), splitOnChar_append (digit_not_colon h2),
    splitOnChar_append (digit_not_colon h3), splitOnChar_not_mem (digit_not_colon h4)]
  simp [pyInt_df h1, pyInt_df h2, pyInt_df h3, pyInt_df h4]

theorem parse_fmt_hms_dot {hs ms ss frac : List Char}
    (h1 : DigitField hs) (h2 : DigitField ms) (h3 : DigitField ss) (h4 : DigitField frac) :
    parse_mmss_to_seconds ⟨(hs ++ (':' :: (ms ++ (':' :: ss)))) ++ ('.' :: frac)⟩ =
      (digitsVal hs : ℚ) * 3600 + (digitsVal ms : ℚ) * 60 + (digitsVal ss : ℚ) +
        (digitsVal frac : ℚ) / 1000 := by
  have hhead : ('.' : Char) ∉ hs ++ (':' :: (ms ++ (':' :: ss))) := by
    intro hmem
    rcases List.mem_append.mp hmem with h | h
    · exact digit_not_dot h1 h
    · rcases List.mem_cons.mp h with h | h
      · exact absurd h (by decide)
      · rcases List.mem_append.mp h with h | h
        · exact digit_not_dot h2 h
        · rcases List.mem_cons.mp h with h | h
          · exact absurd h (by decide)
          · exact digit_not_dot h3 h
  have hct : (List.contains ((hs ++ (':' :: (ms ++ (':' :: ss)))) ++ ('.' :: frac)) '.') = true :=
    contains_eq_true (List.mem_append.mpr (Or.inr (List.mem_cons_self _ _)))
  rw [parse_mmss_to_seconds]
  show (parseMmssAttempt _).getD 0 = _
  rw [parseMmssAttempt, hct]
  simp only [if_true]
  rw [splitOnChar_append hhead, splitOnChar_not_mem (digit_not_dot h4)]
  simp [pyInt_df h4, splitOnChar_append (digit_not_colon h1),
    splitOnChar_append (digit_not_colon h2), splitOnChar_not_mem (digit_not_colon h3),
    pyInt_df h1, pyInt_df h2, pyInt_df h3]

theorem parse_fmt_ms_dot {ms ss frac : List Char}
    (h2 : DigitField ms) (h3 : DigitField ss) (h4 : DigitField frac) :
    parse_mmss_to_seconds ⟨(ms ++ (':' :: ss)) ++ ('.' :: frac)⟩ =
      (digitsVal ms : ℚ) * 60 + (digitsVal ss : ℚ) + (digitsVal frac : ℚ) / 1000 := by
  have hhead : ('.' : Char) ∉ ms ++ (':' :: ss) := by
    intro hmem
    rcases List.mem_append.mp hmem with h | h
    · exact digit_not_dot h2 h
    · rcases List.mem_cons.mp h with h | h
      · exact absurd h (by decide)
      · exact digit_not_dot h3 h
  have hct : (List.contains ((ms ++ (':' :: ss)) ++ ('.' :: frac)) '.') = true :=
    contains_eq_true (List.mem_append.mpr (Or.inr (List.mem_cons_self _ _)))
  rw [parse_mmss_to_seconds]
  show (parseMmssAttempt _).getD 0 = _
  rw [parseMmssAttempt, hct]
  simp only [if_true]
  rw [splitOnChar_append hhead, splitOnChar_not_mem (digit_not_dot h4)]
  simp [pyInt_df h4, splitOnChar_append (digit_not_colon h2),
    splitOnChar_not_mem (digit_not_colon h3), pyInt_df h2, pyInt_df h3]

theorem parse_zero_of_not_wellFormed {cs : List Char} (h : ¬ timecodeWellFormed cs) :
    (parseMmssAttempt cs).getD 0 = 0 := by
  unfold parseMmssAttempt
  unfold timecodeWellFormed at h
  by_cases hdot : cs.contains '.' = true
  · rw [if_pos hdot] at h ⊢
    rcases hsp : splitOnChar '.' cs with _ | ⟨timeParts, afterDot⟩
    · rfl
    · rw [hsp] at h
      rcases afterDot with _ | ⟨msPart, rest⟩
      · rfl
      · dsimp only at h ⊢
        rcases hpi : pyInt msPart with _ | msv
        · rfl
        · rw [hpi] at h
          simp only [Option.isSome_some, true_and] at h
          rcases hct : splitOnChar ':' timeParts with _ | ⟨p0, _ | ⟨p1, _ | ⟨p2, _ | ⟨p3, tl⟩⟩⟩⟩
          all_goals (rw [hct] at h; dsimp only at h ⊢)
          · rfl
          · rfl
          · rcases hp0 : pyInt p0 with _ | v0 <;> rcases hp1 : pyInt p1 with _ | v1 <;>
              first
                | rfl
                | exact absurd ⟨by simp [hp0], by simp [hp1]⟩ h
          · rcases hp0 : pyInt p0 with _ | v0 <;> rcases hp1 : pyInt p1 with _ | v1 <;>
              rcases hp2 : pyInt p2 with _ | v2 <;>
              first
                | rfl
                | exact absurd ⟨by simp [hp0], by simp [hp1], by simp [hp2]⟩ h
          · rfl
  · rw [if_neg hdot] at h ⊢
    rcases hct : splitOnChar ':' cs with
      _ | ⟨p0, _ | ⟨p1, _ | ⟨p2, _ | ⟨p3, _ | ⟨p4, tl⟩⟩⟩⟩⟩
    all_goals (rw [hct] at h; dsimp only at h ⊢)
    · rfl
    · rfl
    · rcases hp0 : pyInt p0 with _ | v0 <;> rcases hp1 : pyInt p1 with _ | v1 <;>
        first
          | rfl
          | exact absurd ⟨by simp [hp0], by simp [hp1]⟩ h
    · rcases hp0 : pyInt p0 with _ | v0 <;> rcases hp1 : pyInt p1 with _ | v1 <;>
        rcases hp2 : pyInt p2 with _ | v2 <;>
        first
          | rfl
          | exact absurd ⟨by simp [hp0], by simp [hp1], by simp [hp2]⟩ h
    · rcases hp0 : pyInt p0 with _ | v0 <;> rcases hp1 : pyInt p1 with _ | v1 <;>
        rcases hp2 : pyInt p2 with _ | v2 <;> rcases hp3 : pyInt p3 with _ | v3 <;>
        first
          | rfl
          | exact absurd ⟨by simp [hp0], by simp [hp1], by simp [hp2], by simp [hp3]⟩ h
    · rfl

/-- C3, as stated, is false: the claim reads `H:MM:SS.ff` with `ff`
*centiseconds* (`+ ff/100`), but the source divides the integer after the dot
by 1000 (milliseconds): `"0:00:01.25"` parses to `1.025`, not `1.25`.  The
claim also reads `MM:SS:mmm` as colon-delimited milliseconds, but a 3-field
colon input is parsed as `H:MM:SS`: `"05:30:200"` parses to `20000.0`
(5 h 30 min 200 s), not `330.2`. -/
theorem C3_counterexample :
    parse_mmss_to_seconds "0:00:01.25" = 1025/1000 ∧ (1025/1000 : ℚ) ≠ 1 + 25/100 ∧
      parse_mmss_to_seconds "05:30:200" = 20000 ∧ (20000 : ℚ) ≠ 5*60 + 30 + 200/1000 := by
  refine ⟨?_, by norm_num, ?_, by norm_num⟩
  · simp [parse_mmss_to_seconds, parseMmssAttempt, splitOnChar, pyInt, stripWs, dropWs,
      digitsOpt, digitsVal, isWs, isDigitCh]
    norm_num
  · simp [parse_mmss_to_seconds, parseMmssAttempt, splitOnChar, pyInt, stripWs, dropWs,
      digitsOpt, digitsVal, isWs, isDigitCh]
    norm_num

/-- C3 amended: without configuration the parser accepts exactly
`H:MM:SS` (→ `H*3600+MM*60+SS`), `H:MM:SS.mmm` and `MM:SS.mmm` (the integer
after the first dot is parsed as *milliseconds*, `+ mmm/1000`),
`H:MM:SS:mmm` (4 colon fields, colon-delimited milliseconds, `+ mmm/1000`),
and `MM:SS` (→ `MM*60+SS`); every input of any other shape (as captured by
`timecodeWellFormed`) returns `0.0`. -/
theorem C3_amended :
    (∀ hs ms ss : List Char, DigitField hs → DigitField ms → DigitField ss →
      parse_mmss_to_seconds ⟨hs ++ (':' :: (ms ++ (':' :: ss)))⟩ =
        (digitsVal hs : ℚ) * 3600 + (digitsVal ms : ℚ) * 60 + (digitsVal ss : ℚ)) ∧
    (∀ hs ms ss frac : List Char,
      DigitField hs → DigitField ms → DigitField ss → DigitField frac →
      parse_mmss_to_seconds ⟨(hs ++ (':' :: (ms ++ (':' :: ss)))) ++ ('.' :: frac)⟩ =
        (digitsVal hs : ℚ) * 3600 + (digitsVal ms : ℚ) * 60 + (digitsVal ss : ℚ) +
          (digitsVal frac : ℚ) / 1000) ∧
    (∀ ms ss frac : List Char, DigitField ms → DigitField ss → DigitField frac →
      parse_mmss_to_seconds ⟨(ms ++ (':' :: ss)) ++ ('.' :: frac)⟩ =
        (digitsVal ms : ℚ) * 60 + (digitsVal ss : ℚ) + (digitsVal frac : ℚ) / 1000) ∧
    (∀ hs ms ss msf : List Char,
      DigitField hs → DigitField ms → DigitField ss → DigitField msf →
      parse_mmss_to_seconds ⟨hs ++ (':' :: (ms ++ (':' :: (ss ++ (':' :: msf)))))⟩ =
        (digitsVal hs : ℚ) * 3600 + (digitsVal ms : ℚ) * 60 + (digitsVal ss : ℚ) +
          (digitsVal msf : ℚ) / 1000) ∧
    (∀ ms ss : List Char, DigitField ms → DigitField ss →
      parse_mmss_to_seconds ⟨ms ++ (':' :: ss)⟩ =
        (digitsVal ms : ℚ) * 60 + (digitsVal ss : ℚ)) ∧
    (∀ s : String, ¬ timecodeWellFormed s.data → parse_mmss_to_seconds s = 0) := by
  refine ⟨?_, ?_, ?_, ?_, ?_, ?_⟩
  · exact fun hs ms ss h1 h2 h3 => parse_fmt_hms h1 h2 h3
  · exact fun hs ms ss frac h1 h2 h3 h4 => parse_fmt_hms_dot h1 h2 h3 h4
  · exact fun ms ss frac h2 h3 h4 => parse_fmt_ms_dot h2 h3 h4
  · exact fun hs ms ss msf h1 h2 h3 h4 => parse_fmt_hms_colon_ms h1 h2 h3 h4
  · exact fun ms ss h2 h3 => parse_fmt_ms h2 h3
  · exact fun s h => parse_zero_of_not_wellFormed h

/-- C3 amended, instantiated: `"1:02:03"` parses to 3723 s via the `H:MM:SS`
clause, and the unparseable `"abc"` returns 0.0 via the fallback clause. -/
theorem C3_amended_witness :
    parse_mmss_to_seconds "1:02:03" = 3723 ∧ parse_mmss_to_seconds "abc" = 0 := by
  constructor
  · have h := C3_amended.1 ['1'] ['0','2'] ['0','3'] (by decide) (by decide) (by decide)
    rw [show ("1:02:03" : String) = ⟨['1'] ++ (':' :: (['0','2'] ++ (':' :: ['0','3'])))⟩
      from rfl] at *
    rw [h, show digitsVal ['1'] = 1 from by decide,
      show digitsVal ['0','2'] = 2 from by decide, show digitsVal ['0','3'] = 3 from by decide]
    norm_num
  · exact C3_amended.2.2.2.2.2 "abc" (by decide)

/-! ## C1 — citation extraction -/

theorem mem_sortedDedup {x : Nat} {xs : List Nat} : x ∈ sortedDedup xs ↔ x ∈ xs := by
  unfold sortedDedup
  rw [(List.perm_insertionSort _ _).mem_iff, List.mem_dedup]

theorem sorted_sortedDedup (xs : List Nat) : List.Sorted (· ≤ ·) (sortedDedup xs) :=
  List.sorted_insertionSort _ _

theorem nodup_sortedDedup (xs : List Nat) : (sortedDedup xs).Nodup :=
  ((List.perm_insertionSort _ _).nodup_iff).mpr (List.nodup_dedup xs)

theorem sortedDedup_eq_of_mem_iff {xs ys : List Nat} (h : ∀ a, a ∈ xs ↔ a ∈ ys) :
    sortedDedup xs = sortedDedup ys :=
  List.eq_of_perm_of_sorted
    ((List.perm_ext_iff_of_nodup (nodup_sortedDedup xs) (nodup_sortedDedup ys)).mpr
      (fun a => by rw [mem_sortedDedup, mem_sortedDedup]; exact h a))
    (sorted_sortedDedup xs) (sorted_sortedDedup ys)

/-- C1, as stated, is false: on the claim's own example text the source's
`extract_citations` returns the single flat, deduplicated, ascending list
`[2, 5]` — not two `Citation`s `[2,5]` then `[2]` in document order (the
per-marker reading is `extract_citations_per_marker`, and not even its
flattening matches the source's output, because the second marker's `2` is
deduplicated away across markers). -/
theorem C1_counterexample :
    extract_citations "... [cite: 2, 5] and also [cite: 2]" = [2, 5] ∧
      extract_citations_per_marker "... [cite: 2, 5] and also [cite: 2]" = [[2, 5], [2]] ∧
      extract_citations "... [cite: 2, 5] and also [cite: 2]" ≠
        (extract_citations_per_marker "... [cite: 2, 5] and also [cite: 2]").flatten := by
  refine ⟨by decide, by decide, by decide⟩

/-- C1 amended: each `[cite: ...]` marker is found independently and in
document order, but the function returns one flat list, deduplicated and
sorted ascending across *all* markers — i.e. for every text it returns
exactly the sorted deduplication of the concatenation of the per-marker
lists; on the example text that is the single list `[2, 5]`. -/
theorem C1_amended (s : String) :
    extract_citations s = sortedDedup ((extract_citations_per_marker s).flatten) := by
  unfold extract_citations extract_citations_per_marker
  refine sortedDedup_eq_of_mem_iff (fun a => ?_)
  simp only [List.mem_flatten, List.mem_map]
  constructor
  · rintro ⟨l, hl, hal⟩
    exact ⟨sortedDedup l, ⟨l, hl, rfl⟩, mem_sortedDedup.mpr hal⟩
  · rintro ⟨_, ⟨l, hl, rfl⟩, hal⟩
    exact ⟨l, hl, mem_sortedDedup.mp hal⟩

/-! ## C9 / C4 — Windower -/

/-- C9: whenever the total duration is at most the window length
(`total_duration_ms ≤ chunk_duration_minutes·60·1000`, i.e.
`total_duration_s ≤ window_length_s`), the Windower returns exactly one
window `[0, total_duration_s]`, with no second window to overlap, for every
fuel. -/
theorem C9_single_window (fuel : Nat) (totalMs : Nat) (chunkMin overlapS : ℚ)
    (h : (totalMs : ℚ) ≤ chunkMin * 60 * 1000) :
    split_audio_with_overlap fuel totalMs chunkMin overlapS =
      some [(0, (totalMs : ℚ) / 1000)] := by
  unfold split_audio_with_overlap
  rw [if_pos h]

/-- C9 instantiated: a 2-minute audio with 30-minute windows gives the single
window `[0, 120]`. -/
theorem C9_single_window_witness :
    split_audio_with_overlap 0 120000 30 25 = some [(0, 120)] := by
  have h := C9_single_window 0 120000 30 25 (by norm_num)
  rw [h]
  norm_num

theorem splitLoop_stuck {totalMs chunkMs overlapMs : ℚ}
    (h1 : chunkMs ≤ overlapMs) (h2 : 0 < chunkMs) (h3 : chunkMs < totalMs) :
    ∀ (fuel : Nat) (startMs : ℚ) (acc : List (ℚ × ℚ)), startMs ≤ 0 →
      splitLoop totalMs chunkMs overlapMs fuel startMs acc = none := by
  intro fuel
  induction fuel with
  | zero => intro startMs acc _; rfl
  | succ n ih =>
    intro startMs acc hstart
    have hlt : startMs < totalMs := lt_of_le_of_lt hstart (lt_trans h2 h3)
    have hend : min (startMs + chunkMs) totalMs = startMs + chunkMs :=
      min_eq_left (le_of_lt (lt_of_le_of_lt (by linarith) h3))
    rw [splitLoop, if_pos hlt]
    simp only [hend]
    rw [if_neg (by push_neg; linarith)]
    exact ih _ _ (by linarith)

/-- C4: the Windower contains no `ConfigError` check at all.  When
`window_length_s ≤ overlap_s` (and the audio is longer than one window, so
the split loop is entered), `start_ms` never advances past zero and the
`while` loop of src/modules/stt.py:951-984 runs forever: for every fuel the
embedded loop is still running.  The claim's guard does not exist in the
code; the job neither fails with `ConfigError` nor terminates. -/
theorem C4_nontermination (totalMs : Nat) (chunkMin overlapS : ℚ)
    (h1 : chunkMin * 60 ≤ overlapS) (h2 : 0 < chunkMin)
    (h3 : chunkMin * 60 * 1000 < (totalMs : ℚ)) :
    ∀ fuel : Nat, split_audio_with_overlap fuel totalMs chunkMin overlapS = none := by
  intro fuel
  unfold split_audio_with_overlap
  rw [if_neg (not_le.mpr h3)]
  exact splitLoop_stuck (by linarith) (by positivity) h3 fuel 0 [] le_rfl

/-- C4 instantiated: a 100 s audio split with 15-second windows
(`chunk_duration_minutes = 1/4`) and the default 25-second overlap never
returns, whatever the fuel (here 1000) — and no `ConfigError` is raised,
since none exists in the code. -/
theorem C4_nontermination_witness :
    split_audio_with_overlap 1000 100000 (1/4) 25 = none :=
  C4_nontermination 100000 (1/4) 25 (by norm_num) (by norm_num) (by norm_num) 1000

/-! ## C10 / C7 / C2 — reconciler theorems -/

/-- C10: a `segments_list` with exactly one window is returned unchanged —
before the id renumbering and the time-offset mutation are ever reached —
whatever `chunk_info_list` and `overlap_seconds` are supplied. -/
theorem C10_single_window_identity (segs : List Seg) (chunkInfo : List (ℚ × ℚ))
    (overlapS : ℚ) : merge_segment_lists [segs] chunkInfo overlapS = segs := rfl

theorem renumberFrom_length (k : Nat) (l : List Seg) :
    (renumberFrom k l).length = l.length := by
  induction l generalizing k with
  | nil => rfl
  | cons s rest ih => simp [renumberFrom, ih]

theorem renumberFrom_getD (k : Nat) (l : List Seg) (i : Nat) (d : Seg)
    (h : i < l.length) : ((renumberFrom k l).getD i d).id = k + i := by
  induction l generalizing k i with
  | nil => exact absurd h (by simp)
  | cons s rest ih =>
    cases i with
    | zero => rfl
    | succ n =>
      have hn : n < rest.length := by simpa using h
      have := ih (k + 1) n hn
      simpa [renumberFrom, Nat.add_assoc, Nat.add_comm 1 n] using this

/-- C7, as stated, is false: after a two-window fold the renumbering starts
at 1 (`enumerate(merged, 1)`), so the merged ids are `[1, 2]`, not the
claim's `[0, 1]`. -/
theorem C7_counterexample :
    (merge_segment_lists
        [[⟨7, "1", 0, none, 1, ""⟩], [⟨9, "2", 30, none, 1, ""⟩]]
        [(0, 10), (10, 20)] 25).map (·.id) = [1, 2] ∧
      ([1, 2] : List Nat) ≠ [0, 1] := by
  constructor
  · decide
  · decide

/-- C7 amended: when at least two windows are folded, `global_id`s are
reassigned sequentially 1..N over the entire final list — the i-th utterance
of the merged result (0-based) carries id `i + 1`.  (A single-window input
bypasses the renumbering entirely, see `C10_single_window_identity`.) -/
theorem C7_amended (segsList : List (List Seg)) (chunkInfo : List (ℚ × ℚ))
    (overlapS : ℚ) (d : Seg) (h2 : 2 ≤ segsList.length) :
    ∀ i, i < (merge_segment_lists segsList chunkInfo overlapS).length →
      ((merge_segment_lists segsList chunkInfo overlapS).getD i d).id = i + 1 := by
  match segsList, h2 with
  | a :: b :: rest, _ =>
    intro i hi
    show ((renumberFrom 1 _).getD i d).id = i + 1
    rw [renumberFrom_getD]
    · exact Nat.add_comm 1 i
    · have : (merge_segment_lists (a :: b :: rest) chunkInfo overlapS).length =
          (renumberFrom 1 ((mergeMarks (a :: b :: rest) chunkInfo overlapS).flatten.filterMap
            id)).length := rfl
      rw [this, renumberFrom_length] at hi
      exact hi

set_option maxRecDepth 100000 in
unseal Rat.add Rat.mul Rat.inv in
/-- C7 amended, instantiated on a concrete two-window fold: the second
merged utterance (0-based index 1) carries id 2. -/
theorem C7_amended_witness :
    ((merge_segment_lists
        [[⟨7, "1", 0, none, 1, ""⟩], [⟨9, "2", 30, none, 1, ""⟩]]
        [(0, 10), (10, 20)] 25).getD 1 ⟨0, "", 0, none, 0, ""⟩).id = 2 :=
  C7_amended _ _ 25 _ (by decide) 1 (by decide)

set_option maxRecDepth 100000 in
set_option maxHeartbeats 2000000 in
unseal Rat.add Rat.mul Rat.inv in
/-- C2, as stated, is false: with both boundary texts non-empty and no
aligned span reaching similarity 0.8 (`bestOverlapCandidate = none`), the
fold does *not* fall back to a pure time cut.  `find_best_overlap_match`
returns `(len(words1), 0)`, the word-count scan then stops at the first
segment (`0 ≥ 0`), and exactly the first utterance of the window is
discarded: here window 1's only utterance has `local_start_s = 30 ≥
overlap_s = 25`, so a pure time cut would keep it (shifted to 1805), yet
the merged result drops it. -/
theorem C2_counterexample :
    prevTail20Text [⟨1, "1", 0, none, 1, "xxx yyy zzz"⟩] ≠ "" ∧
      currHead20Text [⟨1, "2", 30, none, 1, "aaa bbb ccc"⟩] ≠ "" ∧
      bestOverlapCandidate (prevTail20Text [⟨1, "1", 0, none, 1, "xxx yyy zzz"⟩])
        (currHead20Text [⟨1, "2", 30, none, 1, "aaa bbb ccc"⟩]) = none ∧
      (25 : ℚ) ≤ 30 ∧
      merge_segment_lists
          [[⟨1, "1", 0, none, 1, "xxx yyy zzz"⟩], [⟨1, "2", 30, none, 1, "aaa bbb ccc"⟩]]
          [(0, 1775), (1775, 3550)] 25 =
        [⟨1, "1", 0, none, 1, "xxx yyy zzz"⟩] ∧
      merge_segment_lists
          [[⟨1, "1", 0, none, 1, "xxx yyy zzz"⟩], [⟨1, "2", 30, none, 1, "aaa bbb ccc"⟩]]
          [(0, 1775), (1775, 3550)] 25 ≠
        [⟨1, "1", 0, none, 1, "xxx yyy zzz"⟩, ⟨2, "2", 1805, none, 1, "aaa bbb ccc"⟩] := by
  refine ⟨by decide, by decide, by decide, by decide, by decide, by decide⟩

theorem skipUntilIdx_zero {curr : List Seg} (h : curr ≠ []) : skipUntilIdx 0 curr = 1 := by
  match curr, h with
  | s :: rest, _ =>
    rw [skipUntilIdx, skipUntilAux]
    simp

theorem currHead20Text_ne_empty_of {curr : List Seg} (h : currHead20Text curr ≠ "") :
    curr ≠ [] := by
  intro he
  subst he
  exact h rfl

/-- C2 amended: for every window `i > 0` whose previous-window tail text and
own head text are both non-empty, if no aligned word span between the two
texts reaches similarity 0.8, the fold discards exactly the *first*
utterance of window `i` and appends every remaining utterance with its start
time shifted by the window's offset.  The pure time cut on
`local_start_s < overlap_s` happens only when the tail or head text is
empty. -/
theorem filterMap_none_map (l : List Seg) :
    (l.map (fun _ => (none : Option Seg))).filterMap id = [] := by
  induction l with
  | nil => rfl
  | cons s rest ih => simp [ih]

theorem filterMap_some_map (l : List Seg) (f : Seg → Seg) :
    (l.map (fun s => some (f s))).filterMap id = l.map f := by
  induction l with
  | nil => rfl
  | cons s rest ih => simpa using ih

theorem C2_amended (prev curr : List Seg) (off ov : ℚ)
    (hprev : prevTail20Text prev ≠ "") (hcurr : currHead20Text curr ≠ "")
    (hnomatch : bestOverlapCandidate (prevTail20Text prev) (currHead20Text curr) = none) :
    mergeChunkStep prev curr off ov = (curr.drop 1).map (shiftSeg off) := by
  have hcne : curr ≠ [] := currHead20Text_ne_empty_of hcurr
  have hfb : find_best_overlap_match (prevTail20Text prev) (currHead20Text curr) =
      ((pyWords (prevTail20Text prev)).length, 0) := by
    unfold find_best_overlap_match
    rw [hnomatch]
  simp only [mergeChunkStep, windowSelection]
  rw [if_pos ⟨hprev, hcurr⟩, hfb, skipUntilIdx_zero hcne]
  rw [List.filterMap_append, filterMap_none_map, filterMap_some_map, List.nil_append]

set_option maxRecDepth 100000 in
unseal Rat.add Rat.mul Rat.inv in
/-- C2 amended, instantiated: on the counterexample's two windows the fold
appends `([B].drop 1).map shift = []` — the lone dissimilar utterance is
dropped, not time-cut. -/
theorem C2_amended_witness :
    mergeChunkStep [⟨1, "1", 0, none, 1, "xxx yyy zzz"⟩]
      [⟨1, "2", 30, none, 1, "aaa bbb ccc"⟩] 1775 25 = [] :=
  (C2_amended _ _ 1775 25 (by decide) (by decide) (by decide)).trans rfl

/-! ## C5 — running the reconciler twice -/

theorem shiftSeg_zero (s : Seg) : shiftSeg 0 s = s := by
  cases s with
  | mk i sp st et cf tx => cases et <;> simp [shiftSeg]

theorem zeroId_shiftSeg (off : ℚ) (s : Seg) :
    zeroId (shiftSeg off s) = shiftSeg off (zeroId s) := rfl

theorem text_zeroId (s : Seg) : (zeroId s).text = s.text := rfl

theorem start_zeroId (s : Seg) : (zeroId s).start_time = s.start_time := rfl

theorem prevTail20Text_map_zeroId (l : List Seg) :
    prevTail20Text (l.map zeroId) = prevTail20Text l := by
  simp [prevTail20Text, ← List.map_drop, List.map_map, Function.comp_def, text_zeroId]

theorem currHead20Text_map_zeroId (l : List Seg) :
    currHead20Text (l.map zeroId) = currHead20Text l := by
  simp [currHead20Text, ← List.map_take, List.map_map, Function.comp_def, text_zeroId]

theorem skipUntilAux_map_zeroId (t : Nat) (l : List Seg) :
    ∀ i c, skipUntilAux t (l.map zeroId) i c = skipUntilAux t l i c := by
  induction l with
  | nil => intro i c; rfl
  | cons s rest ih => intro i c; simp [skipUntilAux, text_zeroId, ih]

theorem skipUntilIdx_map_zeroId (t : Nat) (l : List Seg) :
    skipUntilIdx t (l.map zeroId) = skipUntilIdx t l := by
  rw [skipUntilIdx, skipUntilIdx, skipUntilAux_map_zeroId]

theorem windowSelection_map_zeroId (prev curr : List Seg) (off ov : ℚ) :
    windowSelection (prev.map zeroId) (curr.map zeroId) off ov =
      (windowSelection prev curr off ov).map (Option.map zeroId) := by
  simp only [windowSelection, prevTail20Text_map_zeroId, currHead20Text_map_zeroId]
  by_cases h : prevTail20Text prev ≠ "" ∧ currHead20Text curr ≠ ""
  · rw [if_pos h, if_pos h, skipUntilIdx_map_zeroId]
    simp [← List.map_take, ← List.map_drop, List.map_map, List.map_append,
      Function.comp_def, zeroId_shiftSeg]
  · rw [if_neg h, if_neg h]
    simp only [List.map_map]
    refine List.map_congr_left (fun s _ => ?_)
    simp only [Function.comp_def, start_zeroId]
    by_cases hc : ov ≤ s.start_time
    · simp [hc, zeroId_shiftSeg]
    · simp [hc]

theorem headD_nil_map_zeroId (l : List (List Seg)) :
    ((l.map (List.map zeroId)).headD []) = (l.headD []).map zeroId := by
  cases l <;> rfl

theorem mergeMarksAux_map_zeroId (orig : List (List Seg)) (ov : ℚ) :
    ∀ (idx : Nat) (ws : List (List Seg)) (cs : List (ℚ × ℚ)),
      mergeMarksAux (orig.map (List.map zeroId)) ov idx (ws.map (List.map zeroId)) cs =
        (mergeMarksAux orig ov idx ws cs).map (List.map (Option.map zeroId)) := by
  intro idx ws
  induction ws generalizing idx with
  | nil => intro cs; cases cs <;> rfl
  | cons w rest ih =>
    intro cs
    cases cs with
    | nil => rfl
    | cons info infos =>
      simp only [List.map_cons, mergeMarksAux]
      congr 1
      · by_cases h : idx = 0
        · rw [if_pos h, if_pos h]
          simp [List.map_map, Function.comp_def]
        · rw [if_neg h, if_neg h, ← List.map_drop, headD_nil_map_zeroId,
            windowSelection_map_zeroId]
      · exact ih (idx + 1) infos

theorem filterMap_id_map_optionMap (ms : List (Option Seg)) :
    (ms.map (Option.map zeroId)).filterMap id = (ms.filterMap id).map zeroId := by
  induction ms with
  | nil => rfl
  | cons m rest ih => cases m <;> simp [ih]

theorem core_map_zeroId (X : List (List Seg)) (c : List (ℚ × ℚ)) (ov : ℚ) :
    (mergeMarks (X.map (List.map zeroId)) c ov).flatten.filterMap id =
      ((mergeMarks X c ov).flatten.filterMap id).map zeroId := by
  unfold mergeMarks
  rw [mergeMarksAux_map_zeroId, ← List.map_flatten, filterMap_id_map_optionMap]

theorem zeroId_eq_set_id {a b : Seg} (h : zeroId a = zeroId b) (k : Nat) :
    ({ a with id := k } : Seg) = { b with id := k } := by
  have hsp := congrArg Seg.speaker h
  have hst := congrArg Seg.start_time h
  have het := congrArg Seg.end_time h
  have hcf := congrArg Seg.confidence h
  have htx := congrArg Seg.text h
  cases a; cases b
  simp only [zeroId] at hsp hst het hcf htx
  simp_all

theorem renumberFrom_congr : ∀ (k : Nat) {l₁ l₂ : List Seg},
    l₁.map zeroId = l₂.map zeroId → renumberFrom k l₁ = renumberFrom k l₂ := by
  intro k l₁
  induction l₁ generalizing k with
  | nil =>
    intro l₂ h
    cases l₂ with
    | nil => rfl
    | cons b r₂ => simp at h
  | cons a r ih =>
    intro l₂ h
    cases l₂ with
    | nil => simp at h
    | cons b r₂ =>
      simp only [List.map_cons, List.cons.injEq] at h
      rw [renumberFrom, renumberFrom, zeroId_eq_set_id h.1 k, ih (k + 1) h.2]

theorem marksOk_map (g : Seg → Option Seg)
    (hg : ∀ s v, g s = some v → zeroId v = zeroId s) (l : List Seg) :
    MarksOk (l.map g) l := by
  induction l with
  | nil => exact MarksOk.nil
  | cons s rest ih =>
    rw [List.map_cons]
    cases hgs : g s with
    | none => exact MarksOk.consNone s ih
    | some v => exact MarksOk.consSome v s (hg s v hgs) ih

theorem marksOk_append {ms₁ : List (Option Seg)} {ss₁ : List Seg}
    {ms₂ : List (Option Seg)} {ss₂ : List Seg}
    (h1 : MarksOk ms₁ ss₁) (h2 : MarksOk ms₂ ss₂) :
    MarksOk (ms₁ ++ ms₂) (ss₁ ++ ss₂) := by
  induction h1 with
  | nil => exact h2
  | consSome v s hv t ih => exact MarksOk.consSome v s hv ih
  | consNone s t ih => exact MarksOk.consNone s ih

theorem marksOk_windowSelection_zero (prev curr : List Seg) (ov : ℚ) :
    MarksOk (windowSelection prev curr 0 ov) curr := by
  simp only [windowSelection]
  by_cases h : prevTail20Text prev ≠ "" ∧ currHead20Text curr ≠ ""
  · rw [if_pos h]
    have h1 : MarksOk
        ((curr.take (skipUntilIdx (find_best_overlap_match (prevTail20Text prev)
          (currHead20Text curr)).2 curr)).map (fun _ => (none : Option Seg)))
        (curr.take (skipUntilIdx (find_best_overlap_match (prevTail20Text prev)
          (currHead20Text curr)).2 curr)) :=
      marksOk_map _ (fun s v hv => by cases hv) _
    have h2 : MarksOk
        ((curr.drop (skipUntilIdx (find_best_overlap_match (prevTail20Text prev)
          (currHead20Text curr)).2 curr)).map (fun s => some (shiftSeg 0 s)))
        (curr.drop (skipUntilIdx (find_best_overlap_match (prevTail20Text prev)
          (currHead20Text curr)).2 curr)) :=
      marksOk_map _ (fun s v hv => by
        injection hv with hv
        rw [← hv, shiftSeg_zero]) _
    have := marksOk_append h1 h2
    rwa [List.take_append_drop] at this
  · rw [if_neg h]
    refine marksOk_map _ (fun s v hv => ?_) _
    by_cases hc : ov ≤ s.start_time
    · rw [if_pos hc] at hv
      injection hv with hv
      rw [← hv, shiftSeg_zero]
    · rw [if_neg hc] at hv
      cases hv

theorem mergeMarksAux_marksOk (orig : List (List Seg)) (ov : ℚ) :
    ∀ (idx : Nat) (ws : List (List Seg)) (cs : List (ℚ × ℚ)), (∀ p ∈ cs, p.1 = 0) →
      ∀ q ∈ (mergeMarksAux orig ov idx ws cs).zip ws, MarksOk q.1 q.2 := by
  intro idx ws
  induction ws generalizing idx with
  | nil => intro cs _ q hq; simp [mergeMarksAux] at hq
  | cons w rest ih =>
    intro cs hz q hq
    cases cs with
    | nil => simp [mergeMarksAux] at hq
    | cons info infos =>
      simp only [mergeMarksAux, List.zip_cons_cons, List.mem_cons] at hq
      rcases hq with hq | hq
      · subst hq
        by_cases h : idx = 0
        · rw [if_pos h]
          exact marksOk_map some (fun s v hv => by injection hv with hv; rw [hv]) w
        · rw [if_neg h]
          have h0 : info.1 = 0 := hz info (List.mem_cons_self _ _)
          rw [h0]
          exact marksOk_windowSelection_zero _ w ov
      · exact ih (idx + 1) infos (fun p hp => hz p (List.mem_cons_of_mem _ hp)) q hq

theorem applyIds_fst_map_zeroId {ms : List (Option Seg)} {ss : List Seg}
    (h : MarksOk ms ss) : ∀ k, ((applyIds k ms ss).1).map zeroId = ss.map zeroId := by
  induction h with
  | nil => intro k; rfl
  | consSome v s hv t ih =>
    intro k
    have hz : zeroId { v with id := k } = zeroId s := hv
    simp [applyIds, hz, ih]
  | consNone s t ih =>
    intro k
    simp [applyIds, ih]

theorem applyIdsWindows_map_zeroId :
    ∀ (k : Nat) (mss : List (List (Option Seg))) (wss : List (List Seg)),
      (∀ p ∈ mss.zip wss, MarksOk p.1 p.2) →
      (applyIdsWindows k mss wss).map (List.map zeroId) = wss.map (List.map zeroId) := by
  intro k mss
  induction mss generalizing k with
  | nil => intro wss _; rfl
  | cons m rest ih =>
    intro wss h
    cases wss with
    | nil => rfl
    | cons w ws =>
      have hm : MarksOk m w := h (m, w) (by simp [List.zip_cons_cons])
      simp only [applyIdsWindows, List.map_cons]
      congr 1
      · exact applyIds_fst_map_zeroId hm k
      · exact ih _ ws (fun p hp => h p (by simp [List.zip_cons_cons, hp]))

set_option maxRecDepth 400000 in
set_option maxHeartbeats 2000000 in
unseal Rat.add Rat.mul Rat.inv in
/-- C5, as stated, is false: `merge_segment_lists` mutates its input
dictionaries in place (time shift at stt.py:1126-1130, id overwrite at
1134-1136), so running it a second time on the very same
`segments_list` — whose contents are now `mergeMutatedState` — shifts the
surviving utterance of window 1 by its 30 s offset *again*: the first run
puts "next topic now" at 50 s, the second at 80 s.  Texts and id order
agree; the timestamps do not. -/
theorem C5_counterexample :
    merge_segment_lists
        [[⟨1, "1", 0, none, 1, "hello world again"⟩],
         [⟨1, "2", 0, none, 1, "hello world again"⟩, ⟨2, "2", 20, none, 1, "next topic now"⟩]]
        [(0, 30), (30, 60)] 25 =
      [⟨1, "1", 0, none, 1, "hello world again"⟩, ⟨2, "2", 50, none, 1, "next topic now"⟩] ∧
    mergeMutatedState
        [[⟨1, "1", 0, none, 1, "hello world again"⟩],
         [⟨1, "2", 0, none, 1, "hello world again"⟩, ⟨2, "2", 20, none, 1, "next topic now"⟩]]
        [(0, 30), (30, 60)] 25 =
      [[⟨1, "1", 0, none, 1, "hello world again"⟩],
       [⟨1, "2", 0, none, 1, "hello world again"⟩, ⟨2, "2", 50, none, 1, "next topic now"⟩]] ∧
    merge_segment_lists
        (mergeMutatedState
          [[⟨1, "1", 0, none, 1, "hello world again"⟩],
           [⟨1, "2", 0, none, 1, "hello world again"⟩, ⟨2, "2", 20, none, 1, "next topic now"⟩]]
          [(0, 30), (30, 60)] 25)
        [(0, 30), (30, 60)] 25 ≠
      merge_segment_lists
        [[⟨1, "1", 0, none, 1, "hello world again"⟩],
         [⟨1, "2", 0, none, 1, "hello world again"⟩, ⟨2, "2", 20, none, 1, "next topic now"⟩]]
        [(0, 30), (30, 60)] 25 := by
  refine ⟨by decide, by decide, by decide⟩

/-- C5 amended: the reconciler is a deterministic function of its input
value, but it mutates `segments_list` in place, so a second run on the same
lists re-shifts every surviving utterance of a window `i > 0` by that
window's start offset (the texts and the 1..N id order are unchanged).  The
two runs coincide exactly in the unmutated cases — at most one window — and
whenever every window offset is 0, which is what this theorem states for
the general fold. -/
theorem C5_amended (segsList : List (List Seg)) (chunkInfo : List (ℚ × ℚ))
    (overlapS : ℚ) (hz : ∀ p ∈ chunkInfo, p.1 = 0) :
    merge_segment_lists (mergeMutatedState segsList chunkInfo overlapS) chunkInfo overlapS =
      merge_segment_lists segsList chunkInfo overlapS := by
  match segsList with
  | [] => rfl
  | [w] => rfl
  | a :: b :: rest =>
    have hOk : ∀ p ∈ (mergeMarks (a :: b :: rest) chunkInfo overlapS).zip (a :: b :: rest),
        MarksOk p.1 p.2 :=
      mergeMarksAux_marksOk (a :: b :: rest) overlapS 0 (a :: b :: rest) chunkInfo hz
    have hzz : (mergeMutatedState (a :: b :: rest) chunkInfo overlapS).map (List.map zeroId) =
        (a :: b :: rest).map (List.map zeroId) :=
      applyIdsWindows_map_zeroId 1 _ _ hOk
    have hlen : (mergeMutatedState (a :: b :: rest) chunkInfo overlapS).length =
        (a :: b :: rest).length := by
      have := congrArg List.length hzz
      simpa using this
    match hT : mergeMutatedState (a :: b :: rest) chunkInfo overlapS, hlen with
    | t1 :: t2 :: ts, _ =>
      rw [hT] at hzz
      show renumberFrom 1 ((mergeMarks (t1 :: t2 :: ts) chunkInfo overlapS).flatten.filterMap id) =
        renumberFrom 1 ((mergeMarks (a :: b :: rest) chunkInfo overlapS).flatten.filterMap id)
      apply renumberFrom_congr
      have e1 := core_map_zeroId (t1 :: t2 :: ts) chunkInfo overlapS
      have e2 := core_map_zeroId (a :: b :: rest) chunkInfo overlapS
      rw [hzz] at e1
      rw [← e1, ← e2]

set_option maxRecDepth 400000 in
set_option maxHeartbeats 2000000 in
unseal Rat.add Rat.mul Rat.inv in
/-- C5 amended, instantiated with zero offsets: the double run equals the
single run on a concrete two-window input. -/
theorem C5_amended_witness :
    merge_segment_lists
        (mergeMutatedState
          [[⟨1, "1", 0, none, 1, "hello world again"⟩],
           [⟨1, "2", 0, none, 1, "hello world again"⟩, ⟨2, "2", 20, none, 1, "next topic now"⟩]]
          [(0, 30), (0, 60)] 25)
        [(0, 30), (0, 60)] 25 =
      merge_segment_lists
        [[⟨1, "1", 0, none, 1, "hello world again"⟩],
         [⟨1, "2", 0, none, 1, "hello world again"⟩, ⟨2, "2", 20, none, 1, "next topic now"⟩]]
        [(0, 30), (0, 60)] 25 :=
  C5_amended _ _ 25 (by decide)

/-! ## C6 — chunking completeness: digit and marker lemmas -/

theorem isDigitCh_digitChar {d : Nat} (h : d < 10) : isDigitCh (digitChar d) = true := by
  interval_cases d <;> decide

theorem digitChar_val {d : Nat} (h : d < 10) : (digitChar d).toNat - '0'.toNat = d := by
  interval_cases d <;> decide

theorem natDigitsAux_digits : ∀ fuel n, (natDigitsAux fuel n).all isDigitCh = true := by
  intro fuel
  induction fuel with
  | zero => intro n; rfl
  | succ f ih =>
    intro n
    rw [natDigitsAux]
    by_cases h : n < 10
    · simp [h, isDigitCh_digitChar h]
    · simp only [h, if_false, List.all_append]
      rw [ih (n / 10)]
      simp [isDigitCh_digitChar (Nat.mod_lt n (by norm_num))]

theorem natDigitsAux_ne_nil : ∀ fuel n, 0 < fuel → natDigitsAux fuel n ≠ [] := by
  intro fuel n h
  match fuel, h with
  | f + 1, _ =>
    rw [natDigitsAux]
    by_cases h10 : n < 10 <;> simp [h10]

theorem digitsVal_append_digit (ds : List Char) (c : Char) :
    digitsVal (ds ++ [c]) = digitsVal ds * 10 + (c.toNat - '0'.toNat) := by
  simp [digitsVal, List.foldl_append]

theorem natDigitsAux_val : ∀ fuel n, n < fuel → digitsVal (natDigitsAux fuel n) = n := by
  intro fuel
  induction fuel with
  | zero => intro n h; exact absurd h (Nat.not_lt_zero n)
  | succ f ih =>
    intro n h
    rw [natDigitsAux]
    by_cases h10 : n < 10
    · simp only [h10, if_true]
      show digitsVal ([] ++ [digitChar n]) = n
      rw [digitsVal_append_digit, digitChar_val h10]
      simp [digitsVal]
    · simp only [h10, if_false]
      rw [digitsVal_append_digit, digitChar_val (Nat.mod_lt n (by norm_num)),
        ih (n / 10) (by omega)]
      omega

theorem natDigits_val (n : Nat) : digitsVal (natDigits n) = n :=
  natDigitsAux_val (n + 1) n (Nat.lt_succ_self n)

theorem natDigits_digits (n : Nat) : (natDigits n).all isDigitCh = true :=
  natDigitsAux_digits (n + 1) n

theorem natDigits_ne_nil (n : Nat) : natDigits n ≠ [] :=
  natDigitsAux_ne_nil (n + 1) n (Nat.succ_pos n)

theorem digit_ne_of_gt {c w : Char} (h : isDigitCh c = true) (hw : '9' < w) : c ≠ w := by
  rintro rfl
  rw [isDigitCh, Bool.and_eq_true] at h
  exact absurd (of_decide_eq_true h.2) (not_le.mpr hw)

theorem digit_ne_lbracket {c : Char} (h : isDigitCh c = true) : c ≠ '[' :=
  digit_ne_of_gt h (by decide)

theorem digit_ne_rbracket {c : Char} (h : isDigitCh c = true) : c ≠ ']' :=
  digit_ne_of_gt h (by decide)

theorem litPrefix_eq_some {pat : List Char} :
    ∀ {cs r : List Char}, litPrefix pat cs = some r ↔ cs = pat ++ r := by
  induction pat with
  | nil =>
    intro cs r
    simp [litPrefix]
  | cons p ps ih =>
    intro cs r
    cases cs with
    | nil => constructor <;> (intro h; cases h)
    | cons c cs' =>
      rw [litPrefix]
      by_cases hc : c = p
      · rw [if_pos hc, ih]
        subst hc
        constructor
        · intro h; rw [h]; rfl
        · intro h
          injection h with _ h2
      · rw [if_neg hc]
        constructor
        · intro h; cases h
        · intro h
          injection h with h1 _
          exact absurd h1 hc

theorem takeDigits_split : ∀ cs : List Char,
    (takeDigits cs).1 ++ (takeDigits cs).2 = cs ∧ (takeDigits cs).1.all isDigitCh = true := by
  intro cs
  induction cs with
  | nil => exact ⟨rfl, rfl⟩
  | cons c rest ih =>
    rw [takeDigits]
    by_cases h : isDigitCh c = true
    · simp only [h, if_true]
      refine ⟨?_, ?_⟩
      · show c :: ((takeDigits rest).1 ++ (takeDigits rest).2) = c :: rest
        rw [ih.1]
      · simp [h, ih.2]
    · simp [h]

theorem takeDigits_of_digits {ds : List Char} (hd : ds.all isDigitCh = true) :
    ∀ {r : List Char}, (∀ c, r = c :: (r.tail) → isDigitCh c = false) →
      takeDigits (ds ++ r) = (ds, r) := by
  induction ds with
  | nil =>
    intro r hr
    cases r with
    | nil => rfl
    | cons c rest =>
      rw [List.nil_append, takeDigits, hr c rfl]
      simp
  | cons d ds' ih =>
    intro r hr
    have hdd : isDigitCh d = true := by
      rw [List.all_cons, Bool.and_eq_true] at hd
      exact hd.1
    have hds' : ds'.all isDigitCh = true := by
      rw [List.all_cons, Bool.and_eq_true] at hd
      exact hd.2
    rw [List.cons_append, takeDigits, if_pos hdd, ih hds' hr]

theorem segMatchAt_iff {cs : List Char} {x : Nat} {rest : List Char} :
    segMatchAt cs = some (x, rest) ↔
      ∃ ds : List Char, ds ≠ [] ∧ ds.all isDigitCh = true ∧ x = digitsVal ds ∧
        cs = '[' :: 'S' :: 'E' :: 'G' :: '_' :: (ds ++ ']' :: rest) := by
  constructor
  · intro h
    rw [segMatchAt] at h
    cases hlit : litPrefix ('[' :: 'S' :: 'E' :: 'G' :: '_' :: []) cs with
    | none => rw [hlit] at h; cases h
    | some r1 =>
      rw [hlit] at h
      dsimp only at h
      cases hdig : digits1 r1 with
      | none => rw [hdig] at h; cases h
      | some nr =>
        obtain ⟨n, r2⟩ := nr
        rw [hdig] at h
        dsimp only at h
        cases hr2 : r2 with
        | nil => rw [hr2] at h; cases h
        | cons rc rrest =>
          rw [hr2] at h
          have hred : (match rc :: rrest with
              | [] => (none : Option (Nat × List Char))
              | c :: rem => if c = ']' then some (n, rem) else none) =
                if rc = ']' then some (n, rrest) else none := rfl
          rw [hred] at h
          by_cases hrc : rc = ']'
          · rw [if_pos hrc] at h
            injection h with h
            injection h with hx hrest
            subst hx hrest hrc
            -- unpack digits1
            rw [digits1] at hdig
            cases htd : takeDigits r1 with
            | mk ds r2x =>
              rw [htd] at hdig
              cases hds : ds with
              | nil => rw [hds] at hdig; cases hdig
              | cons d0 ds' =>
                rw [hds] at hdig
                injection hdig with hdig
                injection hdig with hn hr2e
                refine ⟨ds, by rw [hds]; simp, ?_, by rw [← hn, hds], ?_⟩
                · have := (takeDigits_split r1).2
                  rw [htd] at this
                  exact this
                · have hsplit := (takeDigits_split r1).1
                  rw [htd] at hsplit
                  have hcs := litPrefix_eq_some.mp hlit
                  rw [hcs, ← hsplit, hds, hr2e, hr2]
                  rfl
          · rw [if_neg hrc] at h
            cases h
  · rintro ⟨ds, hne, hd, hx, hcs⟩
    have hlit : litPrefix ('[' :: 'S' :: 'E' :: 'G' :: '_' :: [])
        ('[' :: 'S' :: 'E' :: 'G' :: '_' :: (ds ++ ']' :: rest)) =
        some (ds ++ ']' :: rest) := litPrefix_eq_some.mpr rfl
    have htd : takeDigits (ds ++ ']' :: rest) = (ds, ']' :: rest) :=
      takeDigits_of_digits hd (fun c hc => by
        injection hc with h1 _
        rw [← h1]; rfl)
    have hd1 : digits1 (ds ++ ']' :: rest) = some (digitsVal ds, ']' :: rest) := by
      unfold digits1
      rw [htd]
      cases ds with
      | nil => exact absurd rfl hne
      | cons d0 ds' => rfl
    rw [segMatchAt, hcs, hlit]
    dsimp only
    rw [hd1]
    subst hx
    rfl

theorem digit_run_unique : ∀ {ds₁ r₁ ds₂ r₂ : List Char},
    ds₁.all isDigitCh = true → ds₂.all isDigitCh = true →
    ds₁ ++ ']' :: r₁ = ds₂ ++ ']' :: r₂ → ds₁ = ds₂ ∧ r₁ = r₂ := by
  intro ds₁
  induction ds₁ with
  | nil =>
    intro r₁ ds₂ r₂ _ h2 heq
    cases ds₂ with
    | nil =>
      rw [List.nil_append, List.nil_append] at heq
      injection heq with _ h
      exact ⟨rfl, h⟩
    | cons d2 ds₂' =>
      rw [List.nil_append, List.cons_append] at heq
      injection heq with h _
      have : isDigitCh d2 = true := by
        rw [List.all_cons, Bool.and_eq_true] at h2
        exact h2.1
      exact absurd h.symm (digit_ne_rbracket this)
  | cons d1 ds₁' ih =>
    intro r₁ ds₂ r₂ h1 h2 heq
    have hd1 : isDigitCh d1 = true := by
      rw [List.all_cons, Bool.and_eq_true] at h1
      exact h1.1
    have h1' : ds₁'.all isDigitCh = true := by
      rw [List.all_cons, Bool.and_eq_true] at h1
      exact h1.2
    cases ds₂ with
    | nil =>
      rw [List.cons_append, List.nil_append] at heq
      injection heq with h _
      exact absurd h (digit_ne_rbracket hd1)
    | cons d2 ds₂' =>
      have h2' : ds₂'.all isDigitCh = true := by
        rw [List.all_cons, Bool.and_eq_true] at h2
        exact h2.2
      rw [List.cons_append, List.cons_append] at heq
      injection heq with hh ht
      obtain ⟨e1, e2⟩ := ih h1' h2' ht
      exact ⟨by rw [hh, e1], e2⟩

theorem segScan_sound : ∀ (fuel : Nat) (cs : List Char) (x : Nat), x ∈ segScan fuel cs →
    ∃ k rem, segMatchAt (cs.drop k) = some (x, rem) := by
  intro fuel
  induction fuel with
  | zero => intro cs x h; simp [segScan] at h
  | succ f ih =>
    intro cs x h
    cases cs with
    | nil => simp [segScan] at h
    | cons c rest =>
      rw [segScan] at h
      cases hm : segMatchAt (c :: rest) with
      | some pr =>
        obtain ⟨n, rem⟩ := pr
        rw [hm] at h
        rcases List.mem_cons.mp h with h | h
        · exact ⟨0, rem, by rw [List.drop_zero, hm, h]⟩
        · obtain ⟨k', rem', hk⟩ := ih rem x h
          obtain ⟨ds, _, _, _, hshape⟩ := segMatchAt_iff.mp hm
          have hP : c :: rest = ('[' :: 'S' :: 'E' :: 'G' :: '_' :: (ds ++ [']'])) ++ rem := by
            rw [hshape]; simp
          have hdropP : (c :: rest).drop
              (('[' :: 'S' :: 'E' :: 'G' :: '_' :: (ds ++ [']'])) : List Char).length = rem := by
            rw [hP]; exact List.drop_left _ _
          refine ⟨(('[' :: 'S' :: 'E' :: 'G' :: '_' :: (ds ++ [']'])) : List Char).length + k',
            rem', ?_⟩
          rw [← List.drop_drop k'
            (('[' :: 'S' :: 'E' :: 'G' :: '_' :: (ds ++ [']'])) : List Char).length
            (c :: rest), hdropP]
          exact hk
      | none =>
        rw [hm] at h
        obtain ⟨k, rem, hk⟩ := ih rest x h
        exact ⟨k + 1, rem, hk⟩

theorem lbracket_not_mem_seg_tail {ds extra : List Char} (hd : ds.all isDigitCh = true)
    (hex : '[' ∉ extra) : '[' ∉ ('S' :: 'E' :: 'G' :: '_' :: (ds ++ ']' :: extra)) := by
  intro hmem
  simp only [List.mem_cons, List.mem_append] at hmem
  rcases hmem with h | h | h | h | h | h | h
  · cases h
  · cases h
  · cases h
  · cases h
  · exact absurd (List.all_eq_true.mp hd '[' h) (by decide)
  · cases h
  · exact hex h

theorem segScan_complete : ∀ (fuel : Nat) (A ds B : List Char), ds ≠ [] →
    ds.all isDigitCh = true → A.length + 1 ≤ fuel →
    digitsVal ds ∈ segScan fuel (A ++ ('[' :: 'S' :: 'E' :: 'G' :: '_' :: (ds ++ ']' :: B))) := by
  intro fuel
  induction fuel with
  | zero => intro A ds B _ _ hf; omega
  | succ f ih =>
    intro A ds B hne hd hf
    cases A with
    | nil =>
      rw [List.nil_append, segScan,
        segMatchAt_iff.mpr ⟨ds, hne, hd, rfl, rfl⟩]
      exact List.mem_cons_self _ _
    | cons a A' =>
      rw [List.cons_append, segScan]
      cases hm : segMatchAt (a :: (A' ++ ('[' :: 'S' :: 'E' :: 'G' :: '_' :: (ds ++ ']' :: B)))) with
      | none =>
        have := ih A' ds B hne hd (by simp at hf ⊢; omega)
        simpa using this
      | some pr =>
        obtain ⟨n, rem⟩ := pr
        obtain ⟨ds', hne', hd', _, hshape⟩ := segMatchAt_iff.mp hm
        have hP : (a :: A') ++ ('[' :: 'S' :: 'E' :: 'G' :: '_' :: (ds ++ ']' :: B)) =
            ('[' :: 'S' :: 'E' :: 'G' :: '_' :: (ds' ++ [']'])) ++ rem := by
          rw [List.cons_append, hshape]; simp
        by_cases hlen : (('[' :: 'S' :: 'E' :: 'G' :: '_' :: (ds' ++ [']'])) : List Char).length ≤
            (a :: A').length
        · -- the match ends at or before the target marker: recurse on the remainder
          have hrem : rem = (a :: A').drop
              (('[' :: 'S' :: 'E' :: 'G' :: '_' :: (ds' ++ [']'])) : List Char).length ++
              ('[' :: 'S' :: 'E' :: 'G' :: '_' :: (ds ++ ']' :: B)) := by
            have h1 := congrArg (List.drop
              (('[' :: 'S' :: 'E' :: 'G' :: '_' :: (ds' ++ [']'])) : List Char).length) hP
            rw [List.drop_left, List.drop_append_of_le_length hlen] at h1
            exact h1.symm
          have hfuel : ((a :: A').drop
              (('[' :: 'S' :: 'E' :: 'G' :: '_' :: (ds' ++ [']'])) : List Char).length).length
                + 1 ≤ f := by
            rw [List.length_drop]
            simp only [List.length_cons] at hf ⊢
            simp only [List.length_cons, List.length_append, List.length_append] at hlen
            omega
          have := ih _ ds B hne hd hfuel
          rw [← hrem] at this
          exact List.mem_cons_of_mem n this
        · -- the match would strictly contain the target marker's '[': impossible
          exfalso
          push_neg at hlen
          have h1 := congrArg (List.drop (a :: A').length) hP
          rw [List.drop_left,
            List.drop_append_of_le_length (Nat.le_of_lt hlen)] at h1
          have hlb : '[' ∈ (('[' :: 'S' :: 'E' :: 'G' :: '_' :: (ds' ++ [']'])) : List Char).drop
              (a :: A').length := by
            cases hPd : (('[' :: 'S' :: 'E' :: 'G' :: '_' :: (ds' ++ [']'])) : List Char).drop
                (a :: A').length with
            | nil =>
              have := List.drop_eq_nil_iff.mp hPd
              omega
            | cons c0 t =>
              rw [hPd] at h1
              rw [List.cons_append] at h1
              injection h1 with hc0 _
              rw [hc0]
              exact List.mem_cons_self _ _
          have hmem1 : '[' ∈ (('[' :: 'S' :: 'E' :: 'G' :: '_' :: (ds' ++ [']'])) : List Char).drop 1 := by
            have hsplit : 1 + ((a :: A').length - 1) = (a :: A').length := by
              simp only [List.length_cons]; omega
            rw [← hsplit, ← List.drop_drop ((a :: A').length - 1) 1] at hlb
            exact List.mem_of_mem_drop hlb
          have : '[' ∈ ('S' :: 'E' :: 'G' :: '_' :: (ds' ++ ']' :: ([] : List Char))) := by
            simpa using hmem1
          exact lbracket_not_mem_seg_tail hd' (by simp) this

theorem fullTextOf_cons (s : Seg) (rest : List Seg) :
    fullTextOf (s :: rest) = unitOf s ++ fullTextOf rest := by
  simp [fullTextOf]

theorem marker_at : ∀ (segs : List Seg) (s : Seg), s ∈ segs →
    ∃ p B, (fullTextOf segs).drop p = segMarker s ++ B := by
  intro segs
  induction segs with
  | nil => intro s h; cases h
  | cons s0 rest ih =>
    intro s h
    rcases List.mem_cons.mp h with h | h
    · refine ⟨0, (s.text.data ++ [' ']) ++ fullTextOf rest, ?_⟩
      rw [List.drop_zero, fullTextOf_cons, h, unitOf, List.append_assoc]
    · obtain ⟨p', B, hp⟩ := ih s h
      refine ⟨(unitOf s0).length + p', B, ?_⟩
      rw [fullTextOf_cons, List.drop_append, hp]

theorem lbracket_not_mem_unit_tail {s : Seg} (hclean : '[' ∉ s.text.data) :
    '[' ∉ (unitOf s).drop 1 := by
  have hshape : (unitOf s).drop 1 =
      'S' :: 'E' :: 'G' :: '_' :: (natDigits s.id ++ ']' :: (s.text.data ++ [' '])) := by
    rw [unitOf, segMarker]
    simp
  rw [hshape]
  refine lbracket_not_mem_seg_tail (natDigits_digits s.id) ?_
  intro hmem
  rcases List.mem_append.mp hmem with h | h
  · exact hclean h
  · simp at h

theorem fullTextOf_sound : ∀ (segs : List Seg), (∀ s ∈ segs, '[' ∉ s.text.data) →
    ∀ (q : Nat) (ds B : List Char), ds ≠ [] → ds.all isDigitCh = true →
    (fullTextOf segs).drop q = '[' :: 'S' :: 'E' :: 'G' :: '_' :: (ds ++ ']' :: B) →
    digitsVal ds ∈ segs.map (fun s => s.id) := by
  intro segs
  induction segs with
  | nil =>
    intro _ q ds B _ _ h
    rw [show fullTextOf [] = [] from rfl, List.drop_nil] at h
    cases h
  | cons s rest ih =>
    intro hclean q ds B hne hd h
    rw [fullTextOf_cons] at h
    by_cases hq : (unitOf s).length ≤ q
    · -- the marker lies entirely within the tail: recurse
      have hsplit : (unitOf s).length + (q - (unitOf s).length) = q := by omega
      rw [← hsplit, List.drop_append] at h
      have := ih (fun t ht => hclean t (List.mem_cons_of_mem s ht)) _ ds B hne hd h
      simp only [List.map_cons]
      exact List.mem_cons_of_mem _ this
    · push_neg at hq
      rw [List.drop_append_of_le_length (Nat.le_of_lt hq)] at h
      cases hq0 : q with
      | zero =>
        -- the marker sits exactly at the head unit: its digits are this segment's id
        subst hq0
        rw [List.drop_zero] at h
        have hu : (unitOf s) ++ fullTextOf rest =
            '[' :: 'S' :: 'E' :: 'G' :: '_' ::
              (natDigits s.id ++ ']' :: (s.text.data ++ [' '] ++ fullTextOf rest)) := by
          rw [unitOf, segMarker]
          simp
        rw [hu] at h
        injection h with _ h; injection h with _ h; injection h with _ h
        injection h with _ h; injection h with _ h
        obtain ⟨hds, _⟩ := digit_run_unique (natDigits_digits s.id) hd h
        rw [← hds, natDigits_val]
        simp
      | succ q' =>
        -- 0 < q < |unit|: the unit's interior would have to contain '['
        exfalso
        subst hq0
        have hlb : '[' ∈ (unitOf s).drop (q' + 1) := by
          cases hPd : (unitOf s).drop (q' + 1) with
          | nil =>
            have := List.drop_eq_nil_iff.mp hPd
            omega
          | cons c0 t =>
            rw [hPd, List.cons_append] at h
            injection h with hc0 _
            rw [hc0]
            exact List.mem_cons_self _ _
        have hmem1 : '[' ∈ (unitOf s).drop 1 := by
          rw [show q' + 1 = 1 + q' from by omega, ← List.drop_drop q' 1] at hlb
          exact List.mem_of_mem_drop hlb
        exact lbracket_not_mem_unit_tail (hclean s (List.mem_cons_self s rest)) hmem1

theorem findLastSepEnd_bounds {text sep : List Char} {lo : Nat} :
    ∀ {hi e : Nat}, findLastSepEnd text sep lo hi = some e → lo < e ∧ e ≤ hi := by
  intro hi
  induction hi with
  | zero => intro e h; cases h
  | succ n ih =>
    intro e h
    rw [findLastSepEnd] at h
    by_cases h1 : n + 1 ≤ lo
    · rw [if_pos h1] at h; cases h
    · rw [if_neg h1] at h
      by_cases h2 : sepEndsAt text sep (n + 1) = true
      · rw [if_pos h2] at h
        injection h with h
        omega
      · rw [if_neg h2] at h
        obtain ⟨ha, hb⟩ := ih h
        exact ⟨ha, by omega⟩

theorem chooseBreak_bounds {text : List Char} {lo hi : Nat} :
    ∀ {seps : List (List Char)} {e : Nat}, chooseBreak text lo hi seps = some e →
      lo < e ∧ e ≤ hi := by
  intro seps
  induction seps with
  | nil => intro e h; cases h
  | cons sep rest ih =>
    intro e h
    rw [chooseBreak] at h
    cases hf : findLastSepEnd text sep lo hi with
    | some e' =>
      rw [hf] at h
      injection h with h
      subst h
      exact findLastSepEnd_bounds hf
    | none =>
      rw [hf] at h
      exact ih h

theorem splitPieces_cover : ∀ (fuel : Nat) (text : List Char) (size overlap pe p ℓ : Nat),
    overlap < size → text.length + 1 ≤ pe + fuel → pe < p + ℓ → p + ℓ ≤ text.length →
    ℓ ≤ overlap + 1 →
    ∃ pr ∈ splitPieces text size overlap fuel pe, pr.1 ≤ p ∧ p + ℓ ≤ pr.2 := by
  intro fuel
  induction fuel with
  | zero => intro text size overlap pe p ℓ _ hf _ hlen _; omega
  | succ f ih =>
    intro text size overlap pe p ℓ hsz hf hpe hlen hov
    rw [splitPieces]
    by_cases hfit : text.length ≤ (pe - overlap) + size
    · rw [if_pos hfit]
      exact ⟨(pe - overlap, text.length), List.mem_cons_self _ _, by omega, hlen⟩
    · rw [if_neg hfit]
      rcases hcb : chooseBreak text pe (pe - overlap + size) chunkSeparators with _ | e'
      · dsimp only
        by_cases hcov : p + ℓ ≤ pe - overlap + size
        · exact ⟨(pe - overlap, pe - overlap + size), List.mem_cons_self _ _, by omega, hcov⟩
        · push_neg at hcov
          obtain ⟨pr, hmem, ha, hb⟩ := ih text size overlap (pe - overlap + size) p ℓ hsz
            (by omega) hcov hlen hov
          exact ⟨pr, List.mem_cons_of_mem _ hmem, ha, hb⟩
      · dsimp only
        obtain ⟨hegt, hele⟩ := chooseBreak_bounds hcb
        by_cases hcov : p + ℓ ≤ e'
        · exact ⟨(pe - overlap, e'), List.mem_cons_self _ _, by omega, hcov⟩
        · push_neg at hcov
          obtain ⟨pr, hmem, ha, hb⟩ := ih text size overlap e' p ℓ hsz
            (by omega) hcov hlen hov
          exact ⟨pr, List.mem_cons_of_mem _ hmem, ha, hb⟩

theorem mem_enumFrom_of_mem {α : Type} {a : α} :
    ∀ (l : List α) (n : Nat), a ∈ l → ∃ i, (i, a) ∈ l.enumFrom n := by
  intro l
  induction l with
  | nil => intro n h; cases h
  | cons x xs ih =>
    intro n h
    rcases List.mem_cons.mp h with h | h
    · exact ⟨n, by rw [h]; simp [List.enumFrom]⟩
    · obtain ⟨i, hi⟩ := ih (n + 1) h
      exact ⟨i, by simp only [List.enumFrom, List.mem_cons]; exact Or.inr hi⟩

theorem snd_mem_of_mem_enumFrom {α : Type} :
    ∀ (l : List α) (n : Nat) (q : Nat × α), q ∈ l.enumFrom n → q.2 ∈ l := by
  intro l
  induction l with
  | nil => intro n q h; cases h
  | cons x xs ih =>
    intro n q h
    simp only [List.enumFrom, List.mem_cons] at h
    rcases h with h | h
    · rw [h]; exact List.mem_cons_self _ _
    · exact List.mem_cons_of_mem _ (ih (n + 1) q h)

theorem lookupSeg_isSome {segs : List Seg} {x : Nat}
    (h : x ∈ segs.map (fun s => s.id)) : ∃ s, lookupSeg segs x = some s := by
  obtain ⟨s, hs, hsid⟩ := List.mem_map.mp h
  rw [← Option.isSome_iff_exists, lookupSeg, List.find?_isSome]
  exact ⟨s, List.mem_reverse.mpr hs, by simp [hsid]⟩

theorem chunkOfPiece_segment_ids {segs : List Seg} {p : Nat × List Char} {ch : Chunk}
    (h : chunkOfPiece segs p = some ch) :
    ch.segment_ids = findSegIds p.2 ∧ findSegIds p.2 ≠ [] := by
  simp only [chunkOfPiece] at h
  by_cases hne : findSegIds p.2 = []
  · rw [if_pos hne] at h; cases h
  · rw [if_neg hne] at h
    refine ⟨?_, hne⟩
    rcases hc : (findSegIds p.2).filterMap (lookupSeg segs) with _ | ⟨c0, crest⟩
    · rw [hc] at h
      simp at h
    · rw [hc] at h
      dsimp only at h
      injection h with h
      rw [← h]

theorem chunkOfPiece_emits {segs : List Seg} {p : Nat × List Char} {x : Nat} {s : Seg}
    (hx : x ∈ findSegIds p.2) (hs : lookupSeg segs x = some s) :
    ∃ ch, chunkOfPiece segs p = some ch ∧ ch.segment_ids = findSegIds p.2 := by
  have hne : findSegIds p.2 ≠ [] := List.ne_nil_of_mem hx
  have hcited : s ∈ (findSegIds p.2).filterMap (lookupSeg segs) :=
    List.mem_filterMap.mpr ⟨x, hx, hs⟩
  have hsome : (chunkOfPiece segs p).isSome = true := by
    simp only [chunkOfPiece]
    rw [if_neg hne]
    rcases hc : (findSegIds p.2).filterMap (lookupSeg segs) with _ | ⟨c0, crest⟩
    · rw [hc] at hcited; cases hcited
    · rfl
  obtain ⟨ch, hch⟩ := Option.isSome_iff_exists.mp hsome
  exact ⟨ch, hch, (chunkOfPiece_segment_ids hch).1⟩

theorem mem_create_iff {segs : List Seg} {size overlap : Nat} (hse : segs ≠ []) {ch : Chunk} :
    ch ∈ create_token_based_chunks segs size overlap ↔
      ∃ q ∈ (split_text size overlap (fullTextOf segs)).enum, chunkOfPiece segs q = some ch := by
  rw [create_token_based_chunks, if_neg hse]
  exact List.mem_filterMap

theorem create_ids_sub {segs : List Seg} {size overlap : Nat}
    (hclean : ∀ s ∈ segs, '[' ∉ s.text.data) {x : Nat}
    (hx : x ∈ ((create_token_based_chunks segs size overlap).map
      (fun ch => ch.segment_ids)).flatten) :
    x ∈ segs.map (fun s => s.id) := by
  obtain ⟨l, hl, hxl⟩ := List.mem_flatten.mp hx
  obtain ⟨ch, hch, hlch⟩ := List.mem_map.mp hl
  by_cases hse : segs = []
  · subst hse
    rw [show create_token_based_chunks ([] : List Seg) size overlap = [] from rfl] at hch
    cases hch
  · obtain ⟨q, hq, hcq⟩ := (mem_create_iff hse).mp hch
    obtain ⟨hids, _⟩ := chunkOfPiece_segment_ids hcq
    rw [← hlch, hids, findSegIds] at hxl
    have hq2 : q.2 ∈ split_text size overlap (fullTextOf segs) :=
      snd_mem_of_mem_enumFrom _ 0 q hq
    rw [split_text] at hq2
    obtain ⟨pr, hpr, hpiece⟩ := List.mem_map.mp hq2
    obtain ⟨k, rem, hk⟩ := segScan_sound _ _ _ hxl
    obtain ⟨ds, hne, hd, hxval, hshape⟩ := segMatchAt_iff.mp hk
    have hdropk : q.2.drop k =
        ((fullTextOf segs).drop (pr.1 + k)).take (pr.2 - pr.1 - k) := by
      rw [← hpiece, List.drop_take, List.drop_drop]
    rw [hshape] at hdropk
    have hL : (fullTextOf segs).drop (pr.1 + k) =
        ('[' :: 'S' :: 'E' :: 'G' :: '_' :: (ds ++ ']' :: rem)) ++
          ((fullTextOf segs).drop (pr.1 + k)).drop (pr.2 - pr.1 - k) := by
      conv_lhs => rw [← List.take_append_drop (pr.2 - pr.1 - k)
        ((fullTextOf segs).drop (pr.1 + k))]
      rw [← hdropk]
    have hL' : (fullTextOf segs).drop (pr.1 + k) =
        '[' :: 'S' :: 'E' :: 'G' :: '_' ::
          (ds ++ ']' :: (rem ++ ((fullTextOf segs).drop (pr.1 + k)).drop (pr.2 - pr.1 - k))) := by
      conv_lhs => rw [hL]
      simp only [List.cons_append, List.append_assoc]
    rw [hxval]
    exact fullTextOf_sound segs hclean (pr.1 + k) ds _ hne hd hL'

theorem create_ids_sup {segs : List Seg} {size overlap : Nat}
    (hsz : overlap < size)
    (hmk : ∀ s ∈ segs, (segMarker s).length ≤ overlap + 1)
    {x : Nat} (hx : x ∈ segs.map (fun s => s.id)) :
    x ∈ ((create_token_based_chunks segs size overlap).map
      (fun ch => ch.segment_ids)).flatten := by
  obtain ⟨s, hs, hsid⟩ := List.mem_map.mp hx
  have hse : segs ≠ [] := List.ne_nil_of_mem hs
  obtain ⟨p, B, hp⟩ := marker_at segs s hs
  have hM : 1 ≤ (segMarker s).length := by rw [segMarker]; simp
  have hplen : p + (segMarker s).length ≤ (fullTextOf segs).length := by
    have hlen := congrArg List.length hp
    rw [List.length_drop, List.length_append] at hlen
    omega
  obtain ⟨pr, hpr, ha, hb⟩ := splitPieces_cover ((fullTextOf segs).length + 1)
    (fullTextOf segs) size overlap 0 p (segMarker s).length hsz (by omega) (by omega)
    hplen (hmk s hs)
  have hpiecemem : ((fullTextOf segs).drop pr.1).take (pr.2 - pr.1) ∈
      split_text size overlap (fullTextOf segs) := by
    rw [split_text]
    exact List.mem_map.mpr ⟨pr, hpr, rfl⟩
  have hdropk : (((fullTextOf segs).drop pr.1).take (pr.2 - pr.1)).drop (p - pr.1) =
      ((fullTextOf segs).drop p).take (pr.2 - p) := by
    rw [List.drop_take, List.drop_drop]
    rw [show pr.1 + (p - pr.1) = p from by omega,
      show pr.2 - pr.1 - (p - pr.1) = pr.2 - p from by omega]
  have hmarker : ((fullTextOf segs).drop p).take (pr.2 - p) =
      '[' :: 'S' :: 'E' :: 'G' :: '_' ::
        (natDigits s.id ++ ']' :: B.take (pr.2 - p - (segMarker s).length)) := by
    rw [hp, List.take_append_eq_append_take, List.take_of_length_le (by omega), segMarker]
    simp
  rw [hmarker] at hdropk
  have hdrop_lt : p - pr.1 < (((fullTextOf segs).drop pr.1).take (pr.2 - pr.1)).length := by
    have hlen := congrArg List.length hdropk
    rw [List.length_drop] at hlen
    simp only [List.length_cons] at hlen
    omega
  have hA : ((fullTextOf segs).drop pr.1).take (pr.2 - pr.1) =
      ((((fullTextOf segs).drop pr.1).take (pr.2 - pr.1)).take (p - pr.1)) ++
        ('[' :: 'S' :: 'E' :: 'G' :: '_' ::
          (natDigits s.id ++ ']' :: B.take (pr.2 - p - (segMarker s).length))) := by
    conv_lhs => rw [← List.take_append_drop (p - pr.1)
      (((fullTextOf segs).drop pr.1).take (pr.2 - pr.1))]
    rw [hdropk]
  have hfuel : (((((fullTextOf segs).drop pr.1).take (pr.2 - pr.1)).take (p - pr.1))).length
      + 1 ≤ (((fullTextOf segs).drop pr.1).take (pr.2 - pr.1)).length := by
    rw [List.length_take]
    omega
  have hscan := segScan_complete ((((fullTextOf segs).drop pr.1).take (pr.2 - pr.1))).length
    ((((fullTextOf segs).drop pr.1).take (pr.2 - pr.1)).take (p - pr.1))
    (natDigits s.id) (B.take (pr.2 - p - (segMarker s).length))
    (natDigits_ne_nil s.id) (natDigits_digits s.id) hfuel
  rw [← hA, natDigits_val] at hscan
  have hxscan : x ∈ findSegIds (((fullTextOf segs).drop pr.1).take (pr.2 - pr.1)) := by
    rw [findSegIds, ← hsid]
    exact hscan
  obtain ⟨i, hienum⟩ := mem_enumFrom_of_mem _ 0 hpiecemem
  obtain ⟨s', hs'⟩ := lookupSeg_isSome hx
  obtain ⟨ch, hch, hchids⟩ :=
    chunkOfPiece_emits (p := (i, ((fullTextOf segs).drop pr.1).take (pr.2 - pr.1))) hxscan hs'
  have hchmem : ch ∈ create_token_based_chunks segs size overlap :=
    (mem_create_iff hse).mpr ⟨(i, ((fullTextOf segs).drop pr.1).take (pr.2 - pr.1)),
      hienum, hch⟩
  refine List.mem_flatten.mpr ⟨ch.segment_ids, List.mem_map.mpr ⟨ch, hchmem, rfl⟩, ?_⟩
  rw [hchids]
  exact hxscan

set_option maxRecDepth 100000 in
/-- Claim C6: the union over all returned chunks of their `segment_ids`,
deduplicated, equals the full set of input utterance ids.  Refuted: a
segment whose text itself contains the literal characters `[SEG_7]` makes
the marker scanner report the spurious id 7, which is not an input id —
the union is a strict superset of the input id set. -/
theorem C6_counterexample :
    7 ∈ ((create_token_based_chunks [⟨1, "1", 0, none, 1, "see [SEG_7] here"⟩] 500 100).map
        (fun ch => ch.segment_ids)).flatten ∧
      7 ∉ ([⟨1, "1", 0, none, 1, "see [SEG_7] here"⟩] : List Seg).map (fun s => s.id) := by
  decide

/-- Claim C6, amended: when no segment text contains `'['` (so no marker can
be forged or broken), the overlap is shorter than the chunk size, and every
segment's `[SEG_id]` marker fits inside the overlap plus one character (so a
fragment boundary cannot skip past a whole marker), the union of the chunks'
`segment_ids` equals the set of input segment ids — membership in the
flattened id lists coincides with membership in the input id list. -/
theorem C6_amended (segs : List Seg) (size overlap : Nat)
    (hsz : overlap < size)
    (hmk : ∀ s ∈ segs, (segMarker s).length ≤ overlap + 1)
    (hclean : ∀ s ∈ segs, '[' ∉ s.text.data) (x : Nat) :
    x ∈ ((create_token_based_chunks segs size overlap).map
        (fun ch => ch.segment_ids)).flatten ↔ x ∈ segs.map (fun s => s.id) :=
  ⟨fun h => create_ids_sub hclean h, fun h => create_ids_sup hsz hmk h⟩

set_option maxRecDepth 100000 in
/-- Witness for `C6_amended`: a concrete two-segment input with clean texts,
chunk size 500 and overlap 100, evaluated at id 2. -/
theorem C6_amended_witness :
    2 ∈ ((create_token_based_chunks
        [⟨1, "A", 0, none, 1, "hello"⟩, ⟨2, "B", 5, none, 1, "world"⟩] 500 100).map
        (fun ch => ch.segment_ids)).flatten ↔
      2 ∈ ([⟨1, "A", 0, none, 1, "hello"⟩, ⟨2, "B", 5, none, 1, "world"⟩] : List Seg).map
        (fun s => s.id) :=
  C6_amended [⟨1, "A", 0, none, 1, "hello"⟩, ⟨2, "B", 5, none, 1, "world"⟩] 500 100
    (by decide) (by decide) (by decide) 2

/-! ## C8 — truncated-payload recovery -/

set_option maxRecDepth 400000 in
set_option maxHeartbeats 8000000 in
unseal Rat.add Rat.mul Rat.inv in
/-- Claim C8: on the exact truncated provider payload, the recovery chain
yields exactly one utterance — id 1, speaker `"1"`, text `"Hi"`, start time
0.0 — and the truncated second object is discarded.  Confirmed: the initial
parse fails with an unterminated-string error at the second `"text"` value's
opening quote, and the `Unterminated string` recovery tier cuts the text at
the closing brace of the first object, closes the array, and reparses. -/
theorem C8_truncated_recovery :
    recognize_parse c8payload none =
      some [⟨1, "1", 0, none, 9/10, "Hi"⟩] := by
  decide

end SmartNote
